import Mathlib

/-!
Verification of the text-normalization and type-inference engine of
`limpeza_dados.py` (a pandas-based tabular data cleaner).

Strings are modelled as `List Char`.  Character semantics are scoped to the
ASCII and Latin-1 fragment of Unicode: the regex classes `\d`, `\s` and the
explicit ASCII classes of the source are modelled over ASCII, `str.lower`
over ASCII letters, and the NFKD table covers the common Latin-1 accented
letters (identity elsewhere).  Machine floats are idealized as exact
rationals (unnormalized integer fractions) with round-half-to-even
rounding (as performed by `pandas.Series.round`); signed zero and
binary-representation ties are outside the model's scope.
-/

set_option maxRecDepth 4000

abbrev Str := List Char

/-- Python's `\s` (ASCII range), also the character set of `str.strip`. -/
def isSpaceP (c : Char) : Bool :=
  c.toNat = 32 || c.toNat = 9 || c.toNat = 10 || c.toNat = 13 || c.toNat = 11 || c.toNat = 12

/-- ASCII decimal digit: the explicit `0-9` of the source's character
classes, and `\d` on text that earlier steps have already reduced to
ASCII. -/
def isDigitA (c : Char) : Bool := 48 ≤ c.toNat && c.toNat ≤ 57

/-- The code-point ranges of Unicode category `Nd` (decimal digits),
the character set Python's `\d` matches in `str` patterns. -/
def ndRanges : List (Nat × Nat) :=
  [(0x30, 0x39), (0x660, 0x669), (0x6F0, 0x6F9), (0x7C0, 0x7C9), (0x966, 0x96F),
   (0x9E6, 0x9EF), (0xA66, 0xA6F), (0xAE6, 0xAEF), (0xB66, 0xB6F), (0xBE6, 0xBEF),
   (0xC66, 0xC6F), (0xCE6, 0xCEF), (0xD66, 0xD6F), (0xDE6, 0xDEF), (0xE50, 0xE59),
   (0xED0, 0xED9), (0xF20, 0xF29), (0x1040, 0x1049), (0x1090, 0x1099),
   (0x17E0, 0x17E9), (0x1810, 0x1819), (0x1946, 0x194F), (0x19D0, 0x19D9),
   (0x1A80, 0x1A89), (0x1A90, 0x1A99), (0x1B50, 0x1B59), (0x1BB0, 0x1BB9),
   (0x1C40, 0x1C49), (0x1C50, 0x1C59), (0xA620, 0xA629), (0xA8D0, 0xA8D9),
   (0xA900, 0xA909), (0xA9D0, 0xA9D9), (0xA9F0, 0xA9F9), (0xAA50, 0xAA59),
   (0xABF0, 0xABF9), (0xFF10, 0xFF19), (0x104A0, 0x104A9), (0x10D30, 0x10D39),
   (0x11066, 0x1106F), (0x110F0, 0x110F9), (0x11136, 0x1113F), (0x111D0, 0x111D9),
   (0x112F0, 0x112F9), (0x11450, 0x11459), (0x114D0, 0x114D9), (0x11650, 0x11659),
   (0x116C0, 0x116C9), (0x11730, 0x11739), (0x118E0, 0x118E9), (0x11950, 0x11959),
   (0x11C50, 0x11C59), (0x11D50, 0x11D59), (0x11DA0, 0x11DA9), (0x16A60, 0x16A69),
   (0x16AC0, 0x16AC9), (0x16B50, 0x16B59), (0x1D7CE, 0x1D7FF), (0x1E140, 0x1E149),
   (0x1E2F0, 0x1E2F9), (0x1E950, 0x1E959), (0x1FBF0, 0x1FBF9)]

/-- Python's `\d` on `str` patterns: any Unicode decimal digit
(category `Nd`). -/
def isDigitU (c : Char) : Bool :=
  ndRanges.any fun r => r.1 ≤ c.toNat && c.toNat ≤ r.2

def isAlphaA (c : Char) : Bool :=
  (97 ≤ c.toNat && c.toNat ≤ 122) || (65 ≤ c.toNat && c.toNat ≤ 90)

def isLowerA (c : Char) : Bool := 97 ≤ c.toNat && c.toNat ≤ 122

def isUpperA (c : Char) : Bool := 65 ≤ c.toNat && c.toNat ≤ 90

/-- `str.lower` over the modelled ASCII fragment. -/
def toLowerS (s : Str) : Str :=
  s.map fun c => if isUpperA c then Char.ofNat (c.toNat + 32) else c

/-- `str.lstrip()`. -/
def pyStripLeft : Str → Str
  | [] => []
  | c :: cs => if isSpaceP c then pyStripLeft cs else c :: cs

/-- `str.strip()`. -/
def pyStrip (s : Str) : Str :=
  ((pyStripLeft ((pyStripLeft s).reverse)).reverse)

/-- `re.sub(r'(\d),(\d)', r'\1.\2', s)`: left-to-right scan, a match consumes
both flanking digits, scanning resumes after the match. -/
def sub_virgula : Str → Str
  | a :: b :: c :: rest =>
      if isDigitA a && b == ',' && isDigitA c then
        a :: '.' :: c :: sub_virgula rest
      else
        a :: sub_virgula (b :: c :: rest)
  | s => s

/-- `re.sub` for a two-character pattern `(P)(Q)` with replacement
`\1 \2` (insert a single space), with the scan resuming after a match. -/
def split2 (p q : Char → Bool) : Str → Str
  | a :: b :: rest =>
      if p a && q b then
        a :: ' ' :: b :: split2 p q rest
      else
        a :: split2 p q (b :: rest)
  | s => s

/-- Fueled body of `collapseWs`; the fuel only forces structural
recursion and is never exhausted when it starts at the input length. -/
def collapseWsAux : Nat → Str → Str
  | 0, s => s
  | _ + 1, [] => []
  | fuel + 1, c :: rest =>
      if isSpaceP c then ' ' :: collapseWsAux fuel (rest.dropWhile isSpaceP)
      else c :: collapseWsAux fuel rest

/-- `re.sub(r'\s+', ' ', s)`: each maximal whitespace run becomes one space. -/
def collapseWs (s : Str) : Str := collapseWsAux s.length s

/-- Helper for the `(\d)\s*[xX]\s*(\d)` substitution: given the text after a
digit, try to match `\s*[xX]\s*(\d)`, returning the captured digit and the
remaining text. -/
def tryJoin (s : Str) : Option (Char × Str) :=
  match s.dropWhile isSpaceP with
  | x :: r2 =>
      if x == 'x' || x == 'X' then
        match r2.dropWhile isSpaceP with
        | d :: r4 => if isDigitA d then some (d, r4) else none
        | [] => none
      else none
  | [] => none

/-- Fueled body of `joinX`. -/
def joinXAux : Nat → Str → Str
  | 0, s => s
  | _ + 1, [] => []
  | fuel + 1, c :: rest =>
      if isDigitA c then
        match tryJoin rest with
        | some (d2, rest2) => c :: 'x' :: d2 :: joinXAux fuel rest2
        | none => c :: joinXAux fuel rest
      else c :: joinXAux fuel rest

/-- `re.sub(r'(\d)\s*[xX]\s*(\d)', r'\1x\2', s)`: joins a spaced size
separator into `NxM` (the replacement writes a lowercase `x`), consuming
the trailing digit. -/
def joinX (s : Str) : Str := joinXAux s.length s

/-- Helper for `\s*_\s*`: from a whitespace run, try to match
`\s+_\s*`, returning the text after the match. -/
def checkUnd (s : Str) : Option Str :=
  match s.dropWhile isSpaceP with
  | x :: r2 => if x = '_' then some (r2.dropWhile isSpaceP) else none
  | [] => none

/-- Fueled body of `subUnd`. -/
def subUndAux : Nat → Str → Str
  | 0, s => s
  | _ + 1, [] => []
  | fuel + 1, c :: rest =>
      if c = '_' then '_' :: subUndAux fuel (rest.dropWhile isSpaceP)
      else if isSpaceP c then
        match checkUnd (c :: rest) with
        | some rest2 => '_' :: subUndAux fuel rest2
        | none => c :: subUndAux fuel rest
      else c :: subUndAux fuel rest

/-- `re.sub(r'\s*_\s*', '_', s)`: an underscore together with all adjacent
whitespace becomes a single underscore; the scan resumes after the match. -/
def subUnd (s : Str) : Str := subUndAux s.length s

/-- A continuation byte `0x80..0xBF`. -/
def isCont (b : Nat) : Bool := 0x80 ≤ b && b < 0xC0

/-- `str.encode('latin1')`: one byte per character, failing on any
character above `U+00FF`. -/
def encodeLatin1 : Str → Option (List Nat)
  | [] => some []
  | c :: r =>
      if c.toNat < 256 then (encodeLatin1 r).map (c.toNat :: ·)
      else none

/-- `bytes.decode('utf-8')` (strict): rejects invalid leads, overlong
encodings, surrogates and code points above `U+10FFFF`. -/
def decodeUtf8Aux : Nat → List Nat → Option Str
  | _, [] => some []
  | 0, _ :: _ => none
  | fuel + 1, b :: rest =>
      if b < 0x80 then (decodeUtf8Aux fuel rest).map (Char.ofNat b :: ·)
      else if b < 0xC2 then none
      else if b < 0xE0 then
        if 1 ≤ rest.length && isCont (rest.getD 0 0) then
          (decodeUtf8Aux fuel (rest.drop 1)).map
            (Char.ofNat ((b - 0xC0) * 0x40 + (rest.getD 0 0 - 0x80)) :: ·)
        else none
      else if b < 0xF0 then
        if 2 ≤ rest.length && isCont (rest.getD 0 0) && isCont (rest.getD 1 0) &&
            (b ≠ 0xE0 || 0xA0 ≤ rest.getD 0 0) && (b ≠ 0xED || rest.getD 0 0 < 0xA0) then
          (decodeUtf8Aux fuel (rest.drop 2)).map
            (Char.ofNat ((b - 0xE0) * 0x1000 + (rest.getD 0 0 - 0x80) * 0x40 +
              (rest.getD 1 0 - 0x80)) :: ·)
        else none
      else if b < 0xF5 then
        if 3 ≤ rest.length && isCont (rest.getD 0 0) && isCont (rest.getD 1 0) &&
            isCont (rest.getD 2 0) &&
            (b ≠ 0xF0 || 0x90 ≤ rest.getD 0 0) && (b ≠ 0xF4 || rest.getD 0 0 < 0x90) then
          (decodeUtf8Aux fuel (rest.drop 3)).map
            (Char.ofNat ((b - 0xF0) * 0x40000 + (rest.getD 0 0 - 0x80) * 0x1000 +
              (rest.getD 1 0 - 0x80) * 0x40 + (rest.getD 2 0 - 0x80)) :: ·)
        else none
      else none

def decodeUtf8 (l : List Nat) : Option Str := decodeUtf8Aux l.length l

/-- The trigger test `re.search(r'[ÃÂ ]', texto)`: the class holds
`Ã`, `Â` and a plain space. -/
def mojibakeTrigger (s : Str) : Bool :=
  s.any fun c => c == 'Ã' || c == 'Â' || c == ' '

/-- String-level body of `corrigir_mojibake`: when the trigger class is
present, reinterpret the Latin-1 bytes of the text as UTF-8; on any
encode or decode failure return the text unchanged. -/
def mojibakeStr (s : Str) : Str :=
  if mojibakeTrigger s then
    match encodeLatin1 s with
    | some bs =>
        match decodeUtf8 bs with
        | some t => t
        | none => s
    | none => s
  else s

/-- NFKD decomposition of one character, covering the Latin-1 accented
letters used by Portuguese data; ASCII (which has no compatibility
decompositions) and unlisted characters map to themselves. -/
def nfkd (c : Char) : Str :=
  if c.toNat < 0x80 then [c]
  else if c = 'À' then ['A', '̀']
  else if c = 'Á' then ['A', '́']
  else if c = 'Â' then ['A', '̂']
  else if c = 'Ã' then ['A', '̃']
  else if c = 'Ä' then ['A', '̈']
  else if c = 'Ç' then ['C', '̧']
  else if c = 'É' then ['E', '́']
  else if c = 'Ê' then ['E', '̂']
  else if c = 'Í' then ['I', '́']
  else if c = 'Ó' then ['O', '́']
  else if c = 'Ô' then ['O', '̂']
  else if c = 'Õ' then ['O', '̃']
  else if c = 'Ú' then ['U', '́']
  else if c = 'Ü' then ['U', '̈']
  else if c = 'à' then ['a', '̀']
  else if c = 'á' then ['a', '́']
  else if c = 'â' then ['a', '̂']
  else if c = 'ã' then ['a', '̃']
  else if c = 'ä' then ['a', '̈']
  else if c = 'ç' then ['c', '̧']
  else if c = 'é' then ['e', '́']
  else if c = 'ê' then ['e', '̂']
  else if c = 'í' then ['i', '́']
  else if c = 'ó' then ['o', '́']
  else if c = 'ô' then ['o', '̂']
  else if c = 'õ' then ['o', '̃']
  else if c = 'ú' then ['u', '́']
  else if c = 'ü' then ['u', '̈']
  else [c]

/-- Unicode category Mn over the modelled fragment: the combining
diacritical marks block. -/
def isMn (c : Char) : Bool := 0x300 ≤ c.toNat && c.toNat ≤ 0x36F

/-- String-level body of `remover_acentos`: NFKD-decompose, then drop
every combining mark. -/
def acentosStr (s : Str) : Str :=
  ((s.map nfkd).join).filter fun c => !(isMn c)

/-- `re.fullmatch(r'.*_\d+[xX]\d+', s)`: the text ends with underscore,
digits, `x`/`X`, digits, and the `.*` prefix holds no newline; `\d` is
Python's Unicode digit class `Nd`, not only ASCII `0-9`. -/
def size_fullmatch (s : Str) : Bool :=
  let r := s.reverse
  let d2 := r.takeWhile isDigitU
  let r1 := r.dropWhile isDigitU
  if d2.isEmpty then false
  else
    match r1 with
    | x :: r2 =>
        if x == 'x' || x == 'X' then
          let d1 := r2.takeWhile isDigitU
          let r3 := r2.dropWhile isDigitU
          if d1.isEmpty then false
          else
            match r3 with
            | u :: pre => u == '_' && !(pre.contains '\n')
            | [] => false
        else false
    | [] => false

def nomeIsPreco : Option Str → Bool
  | none => false
  | some n => !n.isEmpty && toLowerS n == "preco".toList

def keepPrice (s : Str) : Str :=
  s.filter fun c => isDigitA c || c == '.' || c == '-'

def keepSize (s : Str) : Str :=
  s.filter fun c => isAlphaA c || isDigitA c || c == '_' || c == 'x' || c == 'X' || c == ' '

def keepGeral (s : Str) : Str :=
  s.filter fun c => isAlphaA c || isDigitA c || c == ' '

def keepCliente (s : Str) : Str :=
  s.filter fun c => isAlphaA c || isDigitA c || c == '_' || c == ' '

def underToSpace (s : Str) : Str :=
  s.map fun c => if c = '_' then ' ' else c

/-- The context branch of `limpar_texto`, applied to the text after
mojibake repair, accent stripping and the decimal-comma substitution:
price, size token or general text for `produtos`; customer rules
otherwise. -/
def limparRamo (contexto : Str) (nome : Option Str) (t3 : Str) : Str :=
  if contexto = "produtos".toList then
    if nomeIsPreco nome then
      pyStrip (keepPrice t3)
    else if size_fullmatch t3 then
      joinX (pyStrip (collapseWs (keepSize t3)))
    else
      let u2 := pyStrip (collapseWs (keepGeral (underToSpace t3)))
      let u5 := split2 isDigitA isAlphaA (split2 isAlphaA isDigitA (split2 isLowerA isUpperA u2))
      pyStrip (joinX u5)
  else
    let u2 := pyStrip (collapseWs (keepCliente (subUnd t3)))
    let u4 := split2 isDigitA isAlphaA (split2 isAlphaA isDigitA u2)
    pyStrip (subUnd u4)

/-- The string pipeline of `limpar_texto` (everything after
`str(valor)`): mojibake repair, accent stripping, decimal-comma
substitution, then the context branch. -/
def limparStr (contexto : Str) (nome : Option Str) (t0 : Str) : Str :=
  limparRamo contexto nome (sub_virgula (acentosStr (mojibakeStr t0)))

/-- An exact rational `num / den` (`den` positive in all reachable
values), kept unnormalized so that every arithmetic step is a plain
integer computation. -/
structure Frac where
  num : Int
  den : Nat
deriving DecidableEq

def Frac.ofInt (n : Int) : Frac := ⟨n, 1⟩

def Frac.mul (a b : Frac) : Frac := ⟨a.num * b.num, a.den * b.den⟩

def Frac.floor (a : Frac) : Int := a.num.fdiv a.den

/-- A cell value as seen by the per-cell cleaning functions: missing
(`NaN`/`None`), text, or a Python `int`/`float`. -/
inductive Cell where
  | null : Cell
  | str : Str → Cell
  | intv : Int → Cell
  | floatv : Frac → Cell
deriving DecidableEq

def digCh : Nat → Char
  | 0 => '0'
  | 1 => '1'
  | 2 => '2'
  | 3 => '3'
  | 4 => '4'
  | 5 => '5'
  | 6 => '6'
  | 7 => '7'
  | 8 => '8'
  | 9 => '9'
  | _ => '0'

/-- Fueled body of `natToDig`. -/
def natToDigAux : Nat → Nat → Str
  | 0, _ => []
  | fuel + 1, n =>
      if n < 10 then [digCh n]
      else natToDigAux fuel (n / 10) ++ [digCh (n % 10)]

/-- Decimal digits of a natural number. -/
def natToDig (n : Nat) : Str := natToDigAux (n + 1) n

/-- Python `str` of an `int`. -/
def intRepr (n : Int) : Str :=
  if n < 0 then '-' :: natToDig n.natAbs else natToDig n.toNat

def fracDig : Nat → Frac → Str
  | 0, _ => []
  | fuel + 1, q =>
      if q.num = 0 then []
      else
        let q10 := q.mul (Frac.ofInt 10)
        let d := q10.floor
        digCh d.toNat :: fracDig fuel ⟨q10.num - d * q10.den, q10.den⟩

/-- Python `str` of a float, over floats with a short terminating decimal
expansion (the only ones the claims exercise). -/
def floatRepr (q : Frac) : Str :=
  let sgn : Str := if q.num < 0 then ['-'] else []
  let a : Frac := ⟨q.num.natAbs, q.den⟩
  let f := a.floor
  let fr : Frac := ⟨a.num - f * a.den, a.den⟩
  sgn ++ natToDig f.toNat ++ '.' :: (if fr.num = 0 then ['0'] else fracDig 17 fr)

/-- Python `str(valor)`. -/
def pyStr : Cell → Str
  | Cell.null => ['n', 'a', 'n']
  | Cell.str s => s
  | Cell.intv n => intRepr n
  | Cell.floatv q => floatRepr q

/-- `corrigir_mojibake` as defined in the source: identity on every
non-string input. -/
def corrigir_mojibake : Cell → Cell
  | Cell.str s => Cell.str (mojibakeStr s)
  | v => v

/-- `remover_acentos` as defined in the source: identity on every
non-string input. -/
def remover_acentos : Cell → Cell
  | Cell.str s => Cell.str (acentosStr s)
  | v => v

/-- `limpar_texto`: `NaN` passes through; every other value is
stringified and sent through the cleaning pipeline. -/
def limpar_texto (valor : Cell) (contexto : Str) (nome : Option Str) : Cell :=
  match valor with
  | Cell.null => Cell.null
  | v => Cell.str (limparStr contexto nome (pyStr v))

/-- Core of `^-?\d+(\.\d+)?$`: optional hyphen, digits, optional dot and
digits, consuming the whole text. -/
def numPatCore (s : Str) : Bool :=
  let s1 := if s.head? = some '-' then s.tail else s
  let ip := s1.takeWhile isDigitA
  let r1 := s1.dropWhile isDigitA
  if ip.isEmpty then false
  else
    match r1 with
    | [] => true
    | c :: r2 => c == '.' && !(r2.takeWhile isDigitA).isEmpty && (r2.dropWhile isDigitA).isEmpty

/-- `Series.str.match(r'^-?\d+(\.\d+)?$')`: Python's `$` also accepts a
single trailing newline. -/
def matchesNumPat (s : Str) : Bool :=
  numPatCore s ||
    (match s.getLast? with
     | some c => c == '\n' && numPatCore s.dropLast
     | none => false)

def natVal (ds : Str) : Nat :=
  ds.foldl (fun a c => 10 * a + (c.toNat - 48)) 0

/-- `pd.to_numeric(·, errors='coerce')` on one value, over the decimal
forms reachable after cleaning (optional sign, digits, one optional dot;
`none` models `NaN`).  Exotic float syntax (exponents, `inf`) cannot
reach this parser because letters are stripped upstream. -/
def parseNum (s0 : Str) : Option Frac :=
  let s := pyStrip s0
  let sgn : Int := if s.head? = some '-' then -1 else 1
  let s1 : Str := if s.head? = some '-' ∨ s.head? = some '+' then s.tail else s
  let ip := s1.takeWhile isDigitA
  let r1 := s1.dropWhile isDigitA
  match r1 with
  | [] => if ip.isEmpty then none else some ⟨sgn * natVal ip, 1⟩
  | c :: r2 =>
      let fp := r2.takeWhile isDigitA
      if c = '.' ∧ (r2.dropWhile isDigitA).isEmpty ∧ ¬(ip.isEmpty ∧ fp.isEmpty) then
        some ⟨sgn * (natVal ip * 10 ^ fp.length + natVal fp), 10 ^ fp.length⟩
      else none

/-- Round half to even to an integer (the rounding of
`pandas.Series.round`, idealized over exact rationals): for `x = n/d`,
`f` is the floor and `rnum/d` the fractional part. -/
def roundHalfEven (x : Frac) : Int :=
  let f := x.floor
  let rnum := x.num - f * x.den
  if 2 * rnum < (x.den : Int) then f
  else if (x.den : Int) < 2 * rnum then f + 1
  else if f % 2 = 0 then f
  else f + 1

/-- `Series.round(2)`. -/
def round2 (q : Frac) : Frac := ⟨roundHalfEven (q.mul (Frac.ofInt 100)), 100⟩

def pad2 (k : Nat) : Str := [digCh (k / 10), digCh (k % 10)]

/-- `f"{x:.2f}"` for a value already rounded to two decimals. -/
def format2 (q : Frac) : Str :=
  let n := (q.mul (Frac.ofInt 100)).floor
  if n < 0 then '-' :: (natToDig (n.natAbs / 100) ++ '.' :: pad2 (n.natAbs % 100))
  else natToDig (n.toNat / 100) ++ '.' :: pad2 (n.toNat % 100)

/-- A pandas column: a text (`object`) column of optional strings, or a
numeric column of optional rationals (`none` models `NaN`). -/
inductive Column where
  | textCol : List (Option Str) → Column
  | numCol : List (Option Frac) → Column
deriving DecidableEq

/-- `str.replace(',', '.')` (plain, non-regex replace). -/
def commaToDot (s : Str) : Str :=
  s.map fun c => if c = ',' then '.' else c

/-- `tentar_converter_numerico`: an already-numeric column is only
reformatted in the `produtos`+`preco` case; a text column is converted
if and only if it has a non-null value and every non-null value (after
comma-to-dot) matches the numeric pattern, re-aligned by position with
nulls kept null; otherwise it is returned unchanged. -/
def tentar_converter_numerico (col : Column) (contexto : Str) (nome : Str) : Column :=
  match col with
  | Column.numCol vs =>
      if contexto = "produtos".toList ∧ toLowerS nome = "preco".toList then
        Column.textCol (vs.map fun o => some (match o with
          | some q => format2 (round2 q)
          | none => []))
      else Column.numCol vs
  | Column.textCol vs =>
      let naoNulos := (vs.filterMap id).map commaToDot
      if naoNulos.isEmpty then Column.textCol vs
      else if naoNulos.all matchesNumPat then
        if contexto = "produtos".toList ∧ toLowerS nome = "preco".toList then
          Column.textCol (vs.map fun o => some (match o with
            | some v =>
                (match parseNum (commaToDot v) with
                 | some q => format2 (round2 q)
                 | none => [])
            | none => []))
        else
          Column.numCol (vs.map fun o => o.bind fun v => parseNum (commaToDot v))
      else Column.textCol vs

/-- The final pass of `processar_arquivo` over the `preco` column:
`pd.to_numeric(·, errors='coerce').round(2)` then fixed two-decimal
formatting, with every unparsable or missing cell rendered as the empty
string. -/
def formatar_preco_final (col : Column) : Column :=
  match col with
  | Column.textCol vs =>
      Column.textCol (vs.map fun o => some (match o.bind parseNum with
        | some q => format2 (round2 q)
        | none => []))
  | Column.numCol vs =>
      Column.textCol (vs.map fun o => some (match o with
        | some q => format2 (round2 q)
        | none => []))

/-- The full per-cell journey of a text `preco` column through
`processar_arquivo`: per-cell cleaning, column coercion, final price
formatting. -/
def processar_coluna_preco (nome : Str) (vals : List (Option Str)) : List (Option Str) :=
  let cleaned := vals.map (Option.map (limparStr ("produtos".toList) (some nome)))
  match formatar_preco_final
      (tentar_converter_numerico (Column.textCol cleaned) ("produtos".toList) nome) with
  | Column.textCol out => out
  | Column.numCol _ => []

/-- Python `s.split(',', n)`: at most `n` splits, remainder kept whole. -/
def splitLimit : Nat → Str → List Str
  | 0, s => [s]
  | n + 1, s =>
      let pre := s.takeWhile fun c => !(c == ',')
      match s.dropWhile (fun c => !(c == ',')) with
      | _ :: r => pre :: splitLimit n r
      | [] => [s]

/-- Python `s.split(',')` (unlimited). -/
def splitComma (s : Str) : List Str := splitLimit s.length s

/-- `expandir_coluna_csv_embutido` for a one-column table (cells taken
as strings, as after `astype(str)`; rows are kept as ragged lists —
pandas' null padding of short rows is not exercised by the claims).
Returns the new header together with the new rows. -/
def expandir_coluna_csv_embutido (nome : Str) (vals : List Str) :
    List Str × List (List Str) :=
  if nome.contains ',' then
    let cab := (splitComma nome).map pyStrip
    (cab, vals.map (splitLimit (cab.length - 1)))
  else
    match vals with
    | primeiro :: _ =>
        if primeiro.contains ',' then
          match vals.map splitComma with
          | header :: dados =>
              if 1 < header.length then (header.map pyStrip, dados)
              else ([nome], vals.map fun v => [v])
          | [] => ([nome], [])
        else ([nome], vals.map fun v => [v])
    | [] => ([nome], [])

/-- Rejoin comma-separated fields (the inverse reading of a split row). -/
def joinComma : List Str → Str
  | [] => []
  | [s] => s
  | s :: rest => s ++ ',' :: joinComma rest

/-! ## Claim theorems -/

/-- C3 (counterexample): `normalize` is not the identity on numeric
inputs — the integer `5` is stringified and returned as the text `"5"`. -/
theorem C3_counterexample :
    limpar_texto (Cell.intv 5) ("clientes".toList) none ≠ Cell.intv 5 := by
  decide

/-- C3 (amended): `repair` and `strip_accents` are the identity on every
non-string input; `normalize` is the identity on null/missing inputs, but
stringifies numeric inputs and returns the processed text. -/
theorem C3_non_string_passthrough :
    (∀ v : Cell, (∀ s, v ≠ Cell.str s) → corrigir_mojibake v = v)
    ∧ (∀ v : Cell, (∀ s, v ≠ Cell.str s) → remover_acentos v = v)
    ∧ (∀ (ctx : Str) (nome : Option Str), limpar_texto Cell.null ctx nome = Cell.null)
    ∧ (∀ (n : Int) (ctx : Str) (nome : Option Str),
        limpar_texto (Cell.intv n) ctx nome = Cell.str (limparStr ctx nome (intRepr n))) := by
  refine ⟨?_, ?_, fun _ _ => rfl, fun _ _ _ => rfl⟩
  · intro v hv
    cases v with
    | str s => exact absurd rfl (hv s)
    | null => rfl
    | intv n => rfl
    | floatv q => rfl
  · intro v hv
    cases v with
    | str s => exact absurd rfl (hv s)
    | null => rfl
    | intv n => rfl
    | floatv q => rfl

theorem C3_non_string_passthrough_witness :
    corrigir_mojibake (Cell.intv 7) = Cell.intv 7
    ∧ remover_acentos (Cell.floatv ⟨5, 2⟩) = Cell.floatv ⟨5, 2⟩
    ∧ limpar_texto Cell.null ("produtos".toList) none = Cell.null
    ∧ limpar_texto (Cell.intv 5) ("clientes".toList) none
        = Cell.str (limparStr ("clientes".toList) none (intRepr 5)) :=
  ⟨C3_non_string_passthrough.1 _ (fun _ h => Cell.noConfusion h),
   C3_non_string_passthrough.2.1 _ (fun _ h => Cell.noConfusion h),
   C3_non_string_passthrough.2.2.1 _ _,
   C3_non_string_passthrough.2.2.2 _ _ _⟩

/-- C5 (counterexample): in the Products context, `"caixa_10 X 20"` does
not normalize to `"caixa_10x20"`: the spaced form fails the underscore
size pattern, takes the general product path, and the underscore becomes
a space. -/
theorem C5_counterexample :
    limparStr ("produtos".toList) (some ("tamanho".toList)) ("caixa_10 X 20".toList)
      = "caixa 10x20".toList
    ∧ "caixa 10x20".toList ≠ "caixa_10x20".toList := by
  decide

/-- C5 (amended): for any non-price column in the Products context,
`"caixa_10x20"` maps to itself (size-token path, underscore preserved),
while `"caixa_10 X 20"` fails the size pattern, falls to the general
product path and maps to `"caixa 10x20"` (underscore converted to a
space, the spaced separator collapsed to `10x20`). -/
theorem C5_size_examples (nome : Str) (h : nomeIsPreco (some nome) = false) :
    limparStr ("produtos".toList) (some nome) ("caixa_10x20".toList)
      = "caixa_10x20".toList
    ∧ limparStr ("produtos".toList) (some nome) ("caixa_10 X 20".toList)
      = "caixa 10x20".toList := by
  constructor <;>
    · simp only [limparStr, limparRamo, h, Bool.false_eq_true, if_false, if_pos]
      decide

theorem C5_size_examples_witness :
    limparStr ("produtos".toList) (some ("tamanho".toList)) ("caixa_10x20".toList)
      = "caixa_10x20".toList
    ∧ limparStr ("produtos".toList) (some ("tamanho".toList)) ("caixa_10 X 20".toList)
      = "caixa 10x20".toList :=
  C5_size_examples ("tamanho".toList) (by decide)

/-- C7 (counterexample): the decimal-comma substitution does not replace
every digit-flanked comma: in `"1,2,3"` the second comma is flanked by
digits but survives, because the scan consumed its left digit; through
the price path `"1,2,3"` becomes `"1.23"`, not `"1.2.3"`. -/
theorem C7_counterexample :
    sub_virgula ("1,2,3".toList) = "1.2,3".toList
    ∧ sub_virgula ("1,2,3".toList) ≠ "1.2.3".toList
    ∧ limparStr ("produtos".toList) (some ("preco".toList)) ("1,2,3".toList)
      = "1.23".toList := by
  decide

/-- C7 (amended): the digit-comma-digit substitution runs on the whole
string before any context branch, in every context, scanning left to
right without overlap: a comma whose left digit was consumed by the
previous replacement is not replaced, commas in non-numeric text are
replaced when digit-flanked, and commas not flanked by digits survive. -/
theorem C7_comma_sub_before_branching :
    (∀ (ctx : Str) (nome : Option Str) (s : Str),
        limparStr ctx nome s = limparRamo ctx nome (sub_virgula (acentosStr (mojibakeStr s))))
    ∧ sub_virgula ("a1,2b".toList) = "a1.2b".toList
    ∧ sub_virgula ("x,y".toList) = "x,y".toList
    ∧ sub_virgula ("1,2,3".toList) = "1.2,3".toList :=
  ⟨fun _ _ _ => rfl, by decide, by decide, by decide⟩

/-- C9 (counterexample): `repair` changes a string containing none of
`Ã`, `Â` or the replacement marker: `"Ä© "` holds none of them, yet the
plain space in the code's trigger class `[ÃÂ ]` fires the
reinterpretation and the text becomes `"ĩ "`. -/
theorem C9_counterexample :
    'Ã' ∉ ("Ä© ".toList)
    ∧ 'Â' ∉ ("Ä© ".toList)
    ∧ '�' ∉ ("Ä© ".toList)
    ∧ corrigir_mojibake (Cell.str ("Ä© ".toList)) = Cell.str ("ĩ ".toList)
    ∧ "ĩ ".toList ≠ "Ä© ".toList := by
  decide

/-- C9 (amended): `repair` attempts the Latin-1-to-UTF-8 reinterpretation
exactly when the text contains `Ã`, `Â` or a plain space (the code's
class `[ÃÂ ]` — no replacement-marker glyph): without a trigger character
the text passes through unchanged, and when the reinterpretation fails
the original text is returned unchanged — no exception escapes. -/
theorem C9_repair_guard :
    (∀ s : Str, mojibakeTrigger s = false → corrigir_mojibake (Cell.str s) = Cell.str s)
    ∧ (∀ s : Str, (encodeLatin1 s).bind decodeUtf8 = none →
        corrigir_mojibake (Cell.str s) = Cell.str s) := by
  constructor
  · intro s hs
    simp [corrigir_mojibake, mojibakeStr, hs]
  · intro s hs
    simp only [corrigir_mojibake, mojibakeStr]
    split
    · cases he : encodeLatin1 s with
      | none => simp [he]
      | some bs =>
          rw [he] at hs
          simp at hs
          simp [he, hs]
    · rfl

theorem C9_repair_guard_witness :
    corrigir_mojibake (Cell.str ("abc".toList)) = Cell.str ("abc".toList)
    ∧ corrigir_mojibake (Cell.str ['Ã']) = Cell.str ['Ã'] :=
  ⟨C9_repair_guard.1 _ (by decide), C9_repair_guard.2 _ (by decide)⟩

theorem dropWhile_head_false (p : Char → Bool) (l : Str) (c : Char) (r : Str)
    (h : l.dropWhile p = c :: r) : p c = false := by
  induction l with
  | nil => simp at h
  | cons a t ih =>
      rw [List.dropWhile_cons] at h
      split at h
      · exact ih h
      · rename_i hpa
        cases h
        simpa using hpa

theorem splitLimit_ne_nil (n : Nat) (v : Str) : splitLimit n v ≠ [] := by
  cases n with
  | zero => simp [splitLimit]
  | succ m =>
      simp only [splitLimit]
      split <;> simp

theorem splitLimit_length_le (n : Nat) (v : Str) : (splitLimit n v).length ≤ n + 1 := by
  induction n generalizing v with
  | zero => simp [splitLimit]
  | succ m ih =>
      simp only [splitLimit]
      split
      · simpa using Nat.succ_le_succ (ih _)
      · simp

theorem joinComma_splitLimit (n : Nat) (v : Str) : joinComma (splitLimit n v) = v := by
  induction n generalizing v with
  | zero => simp [splitLimit, joinComma]
  | succ m ih =>
      simp only [splitLimit]
      cases hd : v.dropWhile (fun c => !(c == ',')) with
      | nil => simp [joinComma]
      | cons c r =>
          have hc : (!(c == ',')) = false := dropWhile_head_false _ v c r hd
          have hc' : c = ',' := by
            simpa using hc
          subst hc'
          have hsplit : v.takeWhile (fun c => !(c == ',')) ++ ',' :: r = v := by
            rw [← hd]
            exact List.takeWhile_append_dropWhile _ _
          rcases hL : splitLimit m r with _ | ⟨l0, ls⟩
          · exact absurd hL (splitLimit_ne_nil m r)
          · show joinComma (v.takeWhile (fun c => !(c == ',')) :: splitLimit m r) = v
            rw [hL]
            simp only [joinComma]
            rw [← hL, ih r]
            exact hsplit

/-- C8: a one-column table whose column name contains a comma is
reshaped: the name, split on commas and trimmed, becomes the header, and
each row is split with at most header-count-minus-one splits — a split
list never exceeds that many fields and rejoining it restores the row
verbatim, so embedded commas in the last field survive.  The
`id,nome,preco` example reshapes to three columns with one row. -/
theorem C8_reshape (nome : Str) (vals : List Str) (h : nome.contains ',' = true) :
    (expandir_coluna_csv_embutido nome vals).1 = (splitComma nome).map pyStrip
    ∧ (expandir_coluna_csv_embutido nome vals).2
        = vals.map (splitLimit (((splitComma nome).map pyStrip).length - 1))
    ∧ (∀ (n : Nat) (v : Str), (splitLimit n v).length ≤ n + 1 ∧ joinComma (splitLimit n v) = v)
    ∧ expandir_coluna_csv_embutido ("id,nome,preco".toList) ["1,Mesa,199.9".toList]
        = (["id".toList, "nome".toList, "preco".toList],
           [["1".toList, "Mesa".toList, "199.9".toList]]) := by
  have h' : ',' ∈ nome := by simpa using h
  refine ⟨?_, ?_, fun n v => ⟨splitLimit_length_le n v, joinComma_splitLimit n v⟩, by decide⟩
  · simp [expandir_coluna_csv_embutido, h']
  · simp [expandir_coluna_csv_embutido, h']

theorem C8_reshape_witness :
    expandir_coluna_csv_embutido ("id,nome,preco".toList) ["1,Mesa,199.9".toList]
      = (["id".toList, "nome".toList, "preco".toList],
         [["1".toList, "Mesa".toList, "199.9".toList]]) :=
  (C8_reshape ("id,nome,preco".toList) ["1,Mesa,199.9".toList] (by decide)).2.2.2

/-- C2 (amended): coercion of a textual column is all-or-nothing — if any
non-null value fails the signed-decimal pattern (after comma-to-dot), the
column is returned exactly unchanged; if every non-null value matches and
at least one non-null value exists, the whole column is converted
(formatted as fixed two-decimal text in the Products price case, numeric
otherwise), re-aligned by position with originally-null rows left null.
A column with no non-null values is returned unchanged, not converted. -/
theorem C2_all_or_nothing (vs : List (Option Str)) (ctx nome : Str) :
    ((∃ w ∈ vs.filterMap id, matchesNumPat (commaToDot w) = false) →
        tentar_converter_numerico (Column.textCol vs) ctx nome = Column.textCol vs)
    ∧ ((∀ w ∈ vs.filterMap id, matchesNumPat (commaToDot w) = true) →
        vs.filterMap id ≠ [] →
        tentar_converter_numerico (Column.textCol vs) ctx nome =
          if ctx = "produtos".toList ∧ toLowerS nome = "preco".toList then
            Column.textCol (vs.map fun o => some (match o with
              | some v =>
                  (match parseNum (commaToDot v) with
                   | some q => format2 (round2 q)
                   | none => [])
              | none => []))
          else Column.numCol (vs.map fun o => o.bind fun v => parseNum (commaToDot v))) := by
  constructor
  · rintro ⟨w, hw, hbad⟩
    have hmem : commaToDot w ∈ (vs.filterMap id).map commaToDot :=
      List.mem_map_of_mem _ hw
    have hne : ((vs.filterMap id).map commaToDot).isEmpty = false := by
      rw [List.isEmpty_eq_false]
      exact List.ne_nil_of_mem hmem
    have hallf : ((vs.filterMap id).map commaToDot).all matchesNumPat = false := by
      rw [List.all_eq_false]
      exact ⟨commaToDot w, hmem, by simp [hbad]⟩
    simp [tentar_converter_numerico, hne, hallf]
  · intro hall hne
    have hne' : ((vs.filterMap id).map commaToDot).isEmpty = false := by
      rw [List.isEmpty_eq_false]
      simpa using hne
    have hallt : ((vs.filterMap id).map commaToDot).all matchesNumPat = true := by
      rw [List.all_eq_true]
      rintro x hx
      rcases List.mem_map.mp hx with ⟨w, hw, rfl⟩
      exact hall w hw
    simp [tentar_converter_numerico, hne', hallt]

theorem C2_all_or_nothing_witness :
    tentar_converter_numerico (Column.textCol
        [some ("1".toList), some ("2".toList), some ("abc".toList)])
        ("clientes".toList) ("qtd".toList)
      = Column.textCol [some ("1".toList), some ("2".toList), some ("abc".toList)]
    ∧ tentar_converter_numerico (Column.textCol
        [some ("1".toList), some ("2,5".toList), none, some ("-3".toList)])
        ("clientes".toList) ("qtd".toList)
      = Column.numCol [some ⟨1, 1⟩, some ⟨25, 10⟩, none, some ⟨-3, 1⟩] := by
  constructor
  · exact (C2_all_or_nothing _ _ _).1 ⟨"abc".toList, by decide, by decide⟩
  · have h := (C2_all_or_nothing
        [some ("1".toList), some ("2,5".toList), none, some ("-3".toList)]
        ("clientes".toList) ("qtd".toList)).2 (by decide) (by decide)
    rw [h]
    decide

/-- C2 (counterexample): the claim's conversion half fails on a column
with no non-null values — every non-null value of `[null]` matches the
pattern vacuously, yet the code's empty-after-dropna guard returns the
text column unchanged instead of converting it to a numeric column. -/
theorem C2_counterexample :
    tentar_converter_numerico (Column.textCol [none]) ("clientes".toList) ("qtd".toList)
      = Column.textCol [none]
    ∧ Column.textCol [none] ≠ Column.numCol [none] := by
  decide

theorem nomeIsPreco_of_lower {nome : Str} (h : toLowerS nome = "preco".toList) :
    nomeIsPreco (some nome) = true := by
  cases nome with
  | nil => simp [toLowerS] at h
  | cons c t => simp [nomeIsPreco, h]

theorem limparStr_preco {nome : Str} (h : toLowerS nome = "preco".toList) (s : Str) :
    limparStr ("produtos".toList) (some nome) s
      = pyStrip (keepPrice (sub_virgula (acentosStr (mojibakeStr s)))) := by
  simp [limparStr, limparRamo, nomeIsPreco_of_lower h]

/-- C6: in the Products context a column whose lowercased name is the
price column is cleaned by the price path alone — strip every character
except digits, dot and hyphen from the preprocessed text and trim — and
this path takes precedence over the size-token and general product
paths, as the size-shaped input `"a_1x2"` shows (it is reduced to
`"12"`, not kept as a size token). -/
theorem C6_price_path (nome : Str) (h : toLowerS nome = "preco".toList) :
    (∀ s : Str, limparStr ("produtos".toList) (some nome) s
        = pyStrip (keepPrice (sub_virgula (acentosStr (mojibakeStr s)))))
    ∧ limparStr ("produtos".toList) (some nome) ("a_1x2".toList) = "12".toList
    ∧ limparStr ("produtos".toList) (some nome) (" R$ 19,90 ".toList) = "19.90".toList := by
  refine ⟨limparStr_preco h, ?_, ?_⟩ <;>
    · rw [limparStr_preco h]
      decide

theorem C6_price_path_witness :
    limparStr ("produtos".toList) (some ("Preco".toList)) ("caixa_10x20".toList)
      = "1020".toList
    ∧ limparStr ("produtos".toList) (some ("Preco".toList)) ("a_1x2".toList)
      = "12".toList := by
  constructor
  · rw [(C6_price_path ("Preco".toList) (by decide)).1 ("caixa_10x20".toList)]
    decide
  · exact (C6_price_path ("Preco".toList) (by decide)).2.1

theorem takeWhile_all {p : Char → Bool} {l : Str} (h : ∀ c ∈ l, p c = true) :
    l.takeWhile p = l := by
  induction l with
  | nil => rfl
  | cons c t ih =>
      rw [List.takeWhile_cons, if_pos (h c (List.mem_cons_self c t))]
      rw [ih fun d hd => h d (List.mem_cons_of_mem c hd)]

theorem dropWhile_all {p : Char → Bool} {l : Str} (h : ∀ c ∈ l, p c = true) :
    l.dropWhile p = [] := by
  induction l with
  | nil => rfl
  | cons c t ih =>
      rw [List.dropWhile_cons, if_pos (h c (List.mem_cons_self c t))]
      exact ih fun d hd => h d (List.mem_cons_of_mem c hd)

theorem takeWhile_append_all {p : Char → Bool} {xs ys : Str}
    (h : ∀ c ∈ xs, p c = true) :
    (xs ++ ys).takeWhile p = xs ++ ys.takeWhile p := by
  induction xs with
  | nil => rfl
  | cons c t ih =>
      rw [List.cons_append, List.takeWhile_cons, if_pos (h c (List.mem_cons_self c t))]
      rw [ih fun d hd => h d (List.mem_cons_of_mem c hd), List.cons_append]

theorem dropWhile_append_all {p : Char → Bool} {xs ys : Str}
    (h : ∀ c ∈ xs, p c = true) :
    (xs ++ ys).dropWhile p = ys.dropWhile p := by
  induction xs with
  | nil => rfl
  | cons c t ih =>
      rw [List.cons_append, List.dropWhile_cons, if_pos (h c (List.mem_cons_self c t))]
      exact ih fun d hd => h d (List.mem_cons_of_mem c hd)

theorem mem_pyStripLeft {c : Char} : ∀ {s : Str}, c ∈ pyStripLeft s → c ∈ s := by
  intro s
  induction s with
  | nil => exact fun h => h
  | cons a t ih =>
      intro h
      rw [pyStripLeft] at h
      split at h
      · exact List.mem_cons_of_mem a (ih h)
      · exact h

theorem mem_pyStrip {c : Char} {s : Str} (h : c ∈ pyStrip s) : c ∈ s := by
  unfold pyStrip at h
  rw [List.mem_reverse] at h
  have h1 := mem_pyStripLeft h
  rw [List.mem_reverse] at h1
  exact mem_pyStripLeft h1

theorem pyStripLeft_id {s : Str} (h : ∀ c ∈ s, isSpaceP c = false) :
    pyStripLeft s = s := by
  cases s with
  | nil => rfl
  | cons c t => simp [pyStripLeft, h c (List.mem_cons_self c t)]

theorem pyStrip_id {s : Str} (h : ∀ c ∈ s, isSpaceP c = false) : pyStrip s = s := by
  unfold pyStrip
  rw [pyStripLeft_id h, pyStripLeft_id, List.reverse_reverse]
  intro c hc
  exact h c (List.mem_reverse.mp hc)

theorem digCh_toNat {d : Nat} (h : d < 10) : (digCh d).toNat = 48 + d := by
  interval_cases d <;> rfl

theorem isDigitA_digCh {d : Nat} (h : d < 10) : isDigitA (digCh d) = true := by
  interval_cases d <;> decide

theorem isDigitA_toNat {c : Char} (h : isDigitA c = true) :
    48 ≤ c.toNat ∧ c.toNat ≤ 57 := by
  simpa [isDigitA] using h

theorem isDigitA_not_space {c : Char} (h : isDigitA c = true) : isSpaceP c = false := by
  obtain ⟨h1, h2⟩ := isDigitA_toNat h
  simp [isSpaceP]
  omega

theorem natVal_append (xs : Str) (c : Char) :
    natVal (xs ++ [c]) = 10 * natVal xs + (c.toNat - 48) := by
  simp [natVal, List.foldl_append]

theorem natToDigAux_spec : ∀ (fuel n : Nat), n < fuel →
    natVal (natToDigAux fuel n) = n
    ∧ natToDigAux fuel n ≠ []
    ∧ (∀ c ∈ natToDigAux fuel n, isDigitA c = true) := by
  intro fuel
  induction fuel with
  | zero => intro n h; omega
  | succ f ih =>
      intro n h
      by_cases h10 : n < 10
      · refine ⟨?_, ?_, ?_⟩ <;> simp [natToDigAux, h10, natVal]
        · rw [digCh_toNat h10]
          omega
        · exact isDigitA_digCh h10
      · have hdiv : n / 10 < f := by
          have h1 : n / 10 < n := Nat.div_lt_self (by omega) (by omega)
          omega
        obtain ⟨ihv, ihne, ihd⟩ := ih (n / 10) hdiv
        refine ⟨?_, ?_, ?_⟩
        · rw [natToDigAux, if_neg h10, natVal_append, ihv,
            digCh_toNat (Nat.mod_lt n (by omega))]
          omega
        · rw [natToDigAux, if_neg h10]
          simp
        · rw [natToDigAux, if_neg h10]
          intro c hc
          rcases List.mem_append.mp hc with hc | hc
          · exact ihd c hc
          · rcases List.mem_singleton.mp hc with rfl
            exact isDigitA_digCh (Nat.mod_lt n (by omega))

theorem natVal_natToDig (n : Nat) : natVal (natToDig n) = n :=
  (natToDigAux_spec (n + 1) n (Nat.lt_succ_self n)).1

theorem natToDig_ne_nil (n : Nat) : natToDig n ≠ [] :=
  (natToDigAux_spec (n + 1) n (Nat.lt_succ_self n)).2.1

theorem natToDig_digits (n : Nat) : ∀ c ∈ natToDig n, isDigitA c = true :=
  (natToDigAux_spec (n + 1) n (Nat.lt_succ_self n)).2.2

theorem pad2_digits {k : Nat} (h : k < 100) : ∀ c ∈ pad2 k, isDigitA c = true := by
  intro c hc
  rcases List.mem_cons.mp hc with rfl | hc
  · exact isDigitA_digCh ((Nat.div_lt_iff_lt_mul (by omega)).mpr (by omega))
  · rcases List.mem_cons.mp hc with rfl | hc
    · exact isDigitA_digCh (Nat.mod_lt k (by omega))
    · exact absurd hc (by simp)

theorem natVal_pad2 {k : Nat} (h : k < 100) : natVal (pad2 k) = k := by
  have hdiv : k / 10 < 10 := (Nat.div_lt_iff_lt_mul (by omega)).mpr (by omega)
  simp [natVal, pad2]
  rw [digCh_toNat hdiv, digCh_toNat (Nat.mod_lt k (by omega))]
  omega

theorem comma_not_mem_keepPrice (s : Str) : ',' ∉ keepPrice s := by
  intro h
  exact absurd (List.mem_filter.mp h).2 (by decide)

theorem commaToDot_id {s : Str} (h : ',' ∉ s) : commaToDot s = s := by
  induction s with
  | nil => rfl
  | cons c t ih =>
      have hc : ¬(c = ',') := fun e => h (e ▸ List.mem_cons_self c t)
      simp only [commaToDot, List.map_cons] at ih ⊢
      rw [if_neg hc]
      rw [ih fun m => h (List.mem_cons_of_mem c m)]

theorem commaToDot_limparPreco {nome : Str} (hn : toLowerS nome = "preco".toList)
    (v : Str) :
    commaToDot (limparStr ("produtos".toList) (some nome) v)
      = limparStr ("produtos".toList) (some nome) v := by
  rw [limparStr_preco hn]
  exact commaToDot_id fun hm => comma_not_mem_keepPrice _ (mem_pyStrip hm)

theorem Frac_mul_ofInt100 (n : Int) :
    (Frac.mk n 100).mul (Frac.ofInt 100) = Frac.mk (n * 100) 100 := by
  simp [Frac.mul, Frac.ofInt]

theorem Frac_floor_mul100 (n : Int) : (Frac.mk (n * 100) 100).floor = n := by
  unfold Frac.floor
  norm_num

theorem roundHalfEven_mul100 (n : Int) : roundHalfEven (Frac.mk (n * 100) 100) = n := by
  unfold roundHalfEven
  rw [Frac_floor_mul100]
  norm_num

theorem round2_stable (n : Int) : round2 (Frac.mk n 100) = Frac.mk n 100 := by
  unfold round2
  rw [Frac_mul_ofInt100, roundHalfEven_mul100]

theorem round2_round2 (q : Frac) : round2 (round2 q) = round2 q := by
  show round2 (Frac.mk (roundHalfEven (q.mul (Frac.ofInt 100))) 100) = _
  rw [round2_stable]
  rfl

theorem isDigitA_ne_hyphen {c : Char} (h : isDigitA c = true) : ¬(c = '-') := by
  intro e
  subst e
  exact absurd h (by decide)

theorem isDigitA_ne_plus {c : Char} (h : isDigitA c = true) : ¬(c = '+') := by
  intro e
  subst e
  exact absurd h (by decide)

theorem digits_dot_nospace {a b : Nat} (hb : b < 100) :
    ∀ c ∈ natToDig a ++ '.' :: pad2 b, isSpaceP c = false := by
  intro c hc
  rcases List.mem_append.mp hc with hc | hc
  · exact isDigitA_not_space (natToDig_digits a c hc)
  · rcases List.mem_cons.mp hc with rfl | hc
    · decide
    · exact isDigitA_not_space (pad2_digits hb c hc)

theorem takeWhile_digits_dot (a b : Nat) :
    (natToDig a ++ '.' :: pad2 b).takeWhile isDigitA = natToDig a := by
  have hdot : isDigitA '.' = false := by decide
  rw [takeWhile_append_all (natToDig_digits a), List.takeWhile_cons, hdot]
  simp

theorem dropWhile_digits_dot (a b : Nat) :
    (natToDig a ++ '.' :: pad2 b).dropWhile isDigitA = '.' :: pad2 b := by
  have hdot : isDigitA '.' = false := by decide
  rw [dropWhile_append_all (natToDig_digits a), List.dropWhile_cons, hdot]
  simp

theorem parseNum_digits_dot_pos (a b : Nat) (hb : b < 100) :
    parseNum (natToDig a ++ '.' :: pad2 b) = some ⟨(a * 100 + b : Nat), 100⟩ := by
  obtain ⟨c0, t0, hD⟩ : ∃ c0 t0, natToDig a = c0 :: t0 := by
    rcases h : natToDig a with _ | ⟨c0, t0⟩
    · exact absurd h (natToDig_ne_nil a)
    · exact ⟨c0, t0, rfl⟩
  have hc0 : isDigitA c0 = true := natToDig_digits a c0 (hD ▸ List.mem_cons_self c0 t0)
  have hstrip : pyStrip (natToDig a ++ '.' :: pad2 b) = natToDig a ++ '.' :: pad2 b :=
    pyStrip_id (digits_dot_nospace hb)
  have hhead : (natToDig a ++ '.' :: pad2 b).head? = some c0 := by
    rw [hD]
    rfl
  have hsgn : ¬(some c0 = some '-') := fun h => isDigitA_ne_hyphen hc0 (by
    injection h)
  have hor : ¬(some c0 = some '-' ∨ some c0 = some '+') := by
    rintro (h | h)
    · exact hsgn h
    · exact isDigitA_ne_plus hc0 (by injection h)
  have hlen : (pad2 b).length = 2 := rfl
  simp only [parseNum, hstrip, hhead, if_neg hor, if_neg hsgn,
    takeWhile_digits_dot, dropWhile_digits_dot]
  rw [takeWhile_all (pad2_digits hb), dropWhile_all (pad2_digits hb)]
  rw [if_pos ⟨trivial, rfl, by rw [hD]; simp⟩]
  rw [natVal_natToDig, natVal_pad2 hb, hlen]
  simp only [Option.some.injEq, Frac.mk.injEq]
  constructor
  · push_cast
    ring
  · norm_num


theorem parseNum_digits_dot_neg (a b : Nat) (hb : b < 100) :
    parseNum ('-' :: (natToDig a ++ '.' :: pad2 b))
      = some ⟨-(a * 100 + b : Nat), 100⟩ := by
  have hstrip : pyStrip ('-' :: (natToDig a ++ '.' :: pad2 b))
      = '-' :: (natToDig a ++ '.' :: pad2 b) := by
    apply pyStrip_id
    intro c hc
    rcases List.mem_cons.mp hc with rfl | hc
    · decide
    · exact digits_dot_nospace hb c hc
  have hlen : (pad2 b).length = 2 := rfl
  simp only [parseNum, hstrip, List.head?_cons, eq_self_iff_true, true_or, if_true,
    List.tail_cons, takeWhile_digits_dot, dropWhile_digits_dot]
  rw [takeWhile_all (pad2_digits hb), dropWhile_all (pad2_digits hb)]
  rw [if_pos ⟨trivial, rfl, by
    rcases h : natToDig a with _ | ⟨c0, t0⟩
    · exact absurd h (natToDig_ne_nil a)
    · simp⟩]
  rw [natVal_natToDig, natVal_pad2 hb, hlen]
  simp only [Option.some.injEq, Frac.mk.injEq]
  constructor
  · push_cast
    ring
  · norm_num


theorem parseNum_format2 (n : Int) : parseNum (format2 (Frac.mk n 100)) = some ⟨n, 100⟩ := by
  simp only [format2, Frac_mul_ofInt100, Frac_floor_mul100]
  by_cases hn : n < 0
  · rw [if_pos hn, parseNum_digits_dot_neg _ _ (Nat.mod_lt _ (by omega))]
    congr 1
    simp only [Frac.mk.injEq, and_true]
    omega
  · rw [if_neg hn, parseNum_digits_dot_pos _ _ (Nat.mod_lt _ (by omega))]
    congr 1
    simp only [Frac.mk.injEq, and_true]
    omega

theorem formatar_textCol_cell (vs : List (Option Str)) (i : Nat) :
    (match formatar_preco_final (Column.textCol vs) with
     | Column.textCol out => out
     | Column.numCol _ => ([] : List (Option Str)))[i]? =
    (vs[i]?).map (fun o => some (match o.bind parseNum with
      | some q => format2 (round2 q)
      | none => ([] : Str))) := by
  simp only [formatar_preco_final]
  rw [List.getElem?_map]

theorem tentar_preco_textCol (vs : List (Option Str)) (nome : Str)
    (hn : toLowerS nome = "preco".toList) :
    tentar_converter_numerico (Column.textCol vs) ("produtos".toList) nome = Column.textCol vs
    ∨ tentar_converter_numerico (Column.textCol vs) ("produtos".toList) nome
        = Column.textCol (vs.map fun o => some (match o with
            | some v =>
                (match parseNum (commaToDot v) with
                 | some q => format2 (round2 q)
                 | none => ([] : Str))
            | none => ([] : Str))) := by
  simp only [tentar_converter_numerico]
  by_cases hemp : ((vs.filterMap id).map commaToDot).isEmpty
  · left
    simp [hemp]
  · by_cases hall : ((vs.filterMap id).map commaToDot).all matchesNumPat
    · right
      simp [hemp, hall, hn]
    · left
      simp [hemp, hall]

theorem processar_cell (nome : Str) (hn : toLowerS nome = "preco".toList)
    (vals : List (Option Str)) (i : Nat) :
    (processar_coluna_preco nome vals)[i]?
      = (vals[i]?).map (fun o => some (match o with
          | some v =>
              (match parseNum (limparStr ("produtos".toList) (some nome) v) with
               | some q => format2 (round2 q)
               | none => ([] : Str))
          | none => ([] : Str))) := by
  simp only [processar_coluna_preco]
  rcases tentar_preco_textCol
      (vals.map (Option.map (limparStr ("produtos".toList) (some nome)))) nome hn with h | h
  · rw [h, formatar_textCol_cell, List.getElem?_map]
    cases hv : vals[i]? with
    | none => rfl
    | some o =>
        cases o with
        | none => rfl
        | some v => rfl
  · rw [h, formatar_textCol_cell, List.getElem?_map, List.getElem?_map]
    cases hv : vals[i]? with
    | none => rfl
    | some o =>
        cases o with
        | none => rfl
        | some v =>
            simp only [Option.map_some']
            rw [commaToDot_limparPreco hn]
            cases hp : parseNum (limparStr ("produtos".toList) (some nome) v) with
            | none =>
                simp [hp]
                rfl
            | some q =>
                simp only [hp]
                show some (some (match parseNum (format2 (round2 q)) with
                  | some q2 => format2 (round2 q2)
                  | none => ([] : Str))) = _
                rw [show round2 q = Frac.mk (roundHalfEven (q.mul (Frac.ofInt 100))) 100 from rfl,
                  parseNum_format2]
                simp only [round2_stable]

/-- C1: for the Products context and a column whose name lowercases to
the price column, every cell whose cleaned value parses as a number is
rendered in the final output as the fixed two-decimal string of its
rounded numeric parse — whether or not the earlier column coercion
converted the column — and every absent cell is rendered as the empty
string. -/
theorem C1_price_formatting (nome : Str) (vals : List (Option Str)) (i : Nat)
    (hn : toLowerS nome = "preco".toList) :
    (∀ (v : Str) (q : Frac), vals[i]? = some (some v) →
        parseNum (limparStr ("produtos".toList) (some nome) v) = some q →
        (processar_coluna_preco nome vals)[i]? = some (some (format2 (round2 q))))
    ∧ (vals[i]? = some none →
        (processar_coluna_preco nome vals)[i]? = some (some ([] : Str))) := by
  constructor
  · intro v q hv hq
    rw [processar_cell nome hn vals i, hv]
    simp only [Option.map_some']
    rw [hq]
  · intro hv
    rw [processar_cell nome hn vals i, hv]
    rfl

theorem C1_price_formatting_witness :
    (processar_coluna_preco ("preco".toList)
        [some ("19,9".toList), some ("19.999".toList), some ("-3".toList), none])[0]?
      = some (some ("19.90".toList))
    ∧ (processar_coluna_preco ("preco".toList)
        [some ("19,9".toList), some ("19.999".toList), some ("-3".toList), none])[1]?
      = some (some ("20.00".toList))
    ∧ (processar_coluna_preco ("preco".toList)
        [some ("19,9".toList), some ("19.999".toList), some ("-3".toList), none])[2]?
      = some (some ("-3.00".toList))
    ∧ (processar_coluna_preco ("preco".toList)
        [some ("19,9".toList), some ("19.999".toList), some ("-3".toList), none])[3]?
      = some (some ([] : Str)) := by
  refine ⟨?_, ?_, ?_, ?_⟩
  · exact ((C1_price_formatting ("preco".toList) _ 0 (by decide)).1
      ("19,9".toList) ⟨199, 10⟩ (by decide) (by decide)).trans (by decide)
  · exact ((C1_price_formatting ("preco".toList) _ 1 (by decide)).1
      ("19.999".toList) ⟨19999, 1000⟩ (by decide) (by decide)).trans (by decide)
  · exact ((C1_price_formatting ("preco".toList) _ 2 (by decide)).1
      ("-3".toList) ⟨-3, 1⟩ (by decide) (by decide)).trans (by decide)
  · exact (C1_price_formatting ("preco".toList) _ 3 (by decide)).2 (by decide)

/-- C10: in the Products context, in a column whose name lowercases to
the price column, the final formatting pass renders every cell whose
value does not parse as a number — including text the earlier
all-or-nothing coercion left untouched — as the empty string: the data
is silently erased, not preserved or reported. -/
theorem C10_unparsable_price_blanked (nome : Str) (vals : List (Option Str))
    (i : Nat) (v : Str)
    (hn : toLowerS nome = "preco".toList)
    (hv : vals[i]? = some (some v))
    (hbad : parseNum (limparStr ("produtos".toList) (some nome) v) = none) :
    (processar_coluna_preco nome vals)[i]? = some (some ([] : Str)) := by
  rw [processar_cell nome hn vals i, hv]
  simp only [Option.map_some']
  rw [hbad]

theorem C10_unparsable_price_blanked_witness :
    (processar_coluna_preco ("preco".toList)
        [some ("1-2".toList), some ("19.9".toList)])[0]?
      = some (some ([] : Str)) :=
  C10_unparsable_price_blanked ("preco".toList)
    [some ("1-2".toList), some ("19.9".toList)] 0 ("1-2".toList)
    (by decide) (by decide) (by decide)

theorem dropWhile_length_le (p : Char → Bool) :
    ∀ s : Str, (s.dropWhile p).length ≤ s.length := by
  intro s
  induction s with
  | nil => simp
  | cons c cs ih =>
      rw [List.dropWhile_cons]
      split
      · exact Nat.le_succ_of_le ih
      · exact Nat.le_refl _

theorem tryJoin_length {s : Str} {d : Char} {t : Str}
    (h : tryJoin s = some (d, t)) : t.length < s.length := by
  have hle1 := dropWhile_length_le isSpaceP s
  unfold tryJoin at h
  rcases h1 : s.dropWhile isSpaceP with _ | ⟨x, r2⟩ <;>
    simp only [h1] at h hle1
  · simp at h
  · have hle2 := dropWhile_length_le isSpaceP r2
    split at h
    · rcases h2 : r2.dropWhile isSpaceP with _ | ⟨e, r4⟩ <;>
        simp only [h2] at h hle2
      · simp at h
      · split at h
        · simp only [Option.some.injEq, Prod.mk.injEq] at h
          obtain ⟨-, rfl⟩ := h
          simp only [List.length_cons] at hle1 hle2 ⊢
          omega
        · simp at h
    · simp at h

theorem checkUnd_length {s : Str} {t : Str} (h : checkUnd s = some t) :
    t.length < s.length := by
  have l1 := dropWhile_length_le isSpaceP s
  unfold checkUnd at h
  rcases h1 : s.dropWhile isSpaceP with _ | ⟨x, r2⟩ <;>
    simp only [h1] at h l1
  · simp at h
  · split at h
    · simp only [Option.some.injEq] at h
      subst h
      have l2 : (r2.dropWhile isSpaceP).length ≤ r2.length :=
        dropWhile_length_le _ _
      simp only [List.length_cons] at l1
      omega
    · simp at h

theorem collapseWsAux_fuel : ∀ (f1 f2 : Nat) (s : Str), s.length ≤ f1 → s.length ≤ f2 →
    collapseWsAux f1 s = collapseWsAux f2 s := by
  intro f1
  induction f1 with
  | zero =>
      intro f2 s h1 _
      have : s = [] := List.length_eq_zero.mp (Nat.le_zero.mp h1)
      subst this
      cases f2 <;> rfl
  | succ g1 ih =>
      intro f2 s h1 h2
      cases s with
      | nil => cases f2 <;> rfl
      | cons c rest =>
          cases f2 with
          | zero => simp at h2
          | succ g2 =>
              simp only [List.length_cons, Nat.succ_le_succ_iff] at h1 h2
              simp only [collapseWsAux]
              by_cases hsp : isSpaceP c = true
              · rw [hsp]
                simp only [if_true]
                rw [ih g2 _ (Nat.le_trans (dropWhile_length_le _ _) h1)
                  (Nat.le_trans (dropWhile_length_le _ _) h2)]
              · rw [Bool.not_eq_true] at hsp
                rw [hsp]
                simp only [Bool.false_eq_true, if_false]
                rw [ih g2 _ h1 h2]

theorem collapseWs_cons (c : Char) (rest : Str) :
    collapseWs (c :: rest)
      = if isSpaceP c then ' ' :: collapseWs (rest.dropWhile isSpaceP)
        else c :: collapseWs rest := by
  show collapseWsAux (rest.length + 1) (c :: rest) = _
  simp only [collapseWsAux]
  by_cases hsp : isSpaceP c = true
  · rw [hsp]
    simp only [if_true]
    rw [collapseWsAux_fuel rest.length (rest.dropWhile isSpaceP).length _
      (dropWhile_length_le _ _) (Nat.le_refl _)]
    rfl
  · rw [Bool.not_eq_true] at hsp
    rw [hsp]
    simp only [Bool.false_eq_true, if_false]
    rfl

theorem joinXAux_fuel : ∀ (f1 f2 : Nat) (s : Str), s.length ≤ f1 → s.length ≤ f2 →
    joinXAux f1 s = joinXAux f2 s := by
  intro f1
  induction f1 with
  | zero =>
      intro f2 s h1 _
      have : s = [] := List.length_eq_zero.mp (Nat.le_zero.mp h1)
      subst this
      cases f2 <;> rfl
  | succ g1 ih =>
      intro f2 s h1 h2
      cases s with
      | nil => cases f2 <;> rfl
      | cons c rest =>
          cases f2 with
          | zero => simp at h2
          | succ g2 =>
              simp only [List.length_cons, Nat.succ_le_succ_iff] at h1 h2
              simp only [joinXAux]
              by_cases hd : isDigitA c = true
              · rw [hd]
                simp only [if_true]
                cases htj : tryJoin rest with
                | some p =>
                    obtain ⟨d2, rest2⟩ := p
                    have hlen := tryJoin_length htj
                    show c :: 'x' :: d2 :: joinXAux g1 rest2
                      = c :: 'x' :: d2 :: joinXAux g2 rest2
                    rw [ih g2 rest2 (by omega) (by omega)]
                | none =>
                    show c :: joinXAux g1 rest = c :: joinXAux g2 rest
                    rw [ih g2 rest h1 h2]
              · rw [Bool.not_eq_true] at hd
                rw [hd]
                simp only [Bool.false_eq_true, if_false]
                rw [ih g2 rest h1 h2]

theorem joinX_cons (c : Char) (rest : Str) :
    joinX (c :: rest)
      = if isDigitA c then
          match tryJoin rest with
          | some (d2, rest2) => c :: 'x' :: d2 :: joinX rest2
          | none => c :: joinX rest
        else c :: joinX rest := by
  show joinXAux (rest.length + 1) (c :: rest) = _
  simp only [joinXAux]
  by_cases hd : isDigitA c = true
  · rw [hd]
    simp only [if_true]
    cases htj : tryJoin rest with
    | some p =>
        obtain ⟨d2, rest2⟩ := p
        have hlen := tryJoin_length htj
        show c :: 'x' :: d2 :: joinXAux rest.length rest2 = _
        rw [joinXAux_fuel rest.length rest2.length rest2 (by omega) (Nat.le_refl _)]
        rfl
    | none => rfl
  · rw [Bool.not_eq_true] at hd
    rw [hd]
    simp only [Bool.false_eq_true, if_false]
    rfl

theorem subUndAux_fuel : ∀ (f1 f2 : Nat) (s : Str), s.length ≤ f1 → s.length ≤ f2 →
    subUndAux f1 s = subUndAux f2 s := by
  intro f1
  induction f1 with
  | zero =>
      intro f2 s h1 _
      have : s = [] := List.length_eq_zero.mp (Nat.le_zero.mp h1)
      subst this
      cases f2 <;> rfl
  | succ g1 ih =>
      intro f2 s h1 h2
      cases s with
      | nil => cases f2 <;> rfl
      | cons c rest =>
          cases f2 with
          | zero => simp at h2
          | succ g2 =>
              simp only [List.length_cons, Nat.succ_le_succ_iff] at h1 h2
              simp only [subUndAux]
              by_cases hu : c = '_'
              · rw [if_pos hu, if_pos hu]
                rw [ih g2 _ (Nat.le_trans (dropWhile_length_le _ _) h1)
                  (Nat.le_trans (dropWhile_length_le _ _) h2)]
              · rw [if_neg hu, if_neg hu]
                by_cases hsp : isSpaceP c = true
                · rw [hsp]
                  simp only [if_true]
                  cases hcu : checkUnd (c :: rest) with
                  | some rest2 =>
                      have hlen := checkUnd_length hcu
                      simp only [List.length_cons] at hlen
                      show '_' :: subUndAux g1 rest2 = '_' :: subUndAux g2 rest2
                      rw [ih g2 rest2 (by omega) (by omega)]
                  | none =>
                      show c :: subUndAux g1 rest = c :: subUndAux g2 rest
                      rw [ih g2 rest h1 h2]
                · rw [Bool.not_eq_true] at hsp
                  rw [hsp]
                  simp only [Bool.false_eq_true, if_false]
                  rw [ih g2 rest h1 h2]

theorem subUnd_cons (c : Char) (rest : Str) :
    subUnd (c :: rest)
      = if c = '_' then '_' :: subUnd (rest.dropWhile isSpaceP)
        else if isSpaceP c then
          match checkUnd (c :: rest) with
          | some rest2 => '_' :: subUnd rest2
          | none => c :: subUnd rest
        else c :: subUnd rest := by
  show subUndAux (rest.length + 1) (c :: rest) = _
  simp only [subUndAux]
  by_cases hu : c = '_'
  · rw [if_pos hu, if_pos hu]
    rw [subUndAux_fuel rest.length _ _ (dropWhile_length_le _ _) (Nat.le_refl _)]
    rfl
  · rw [if_neg hu, if_neg hu]
    by_cases hsp : isSpaceP c = true
    · rw [hsp]
      simp only [if_true]
      cases hcu : checkUnd (c :: rest) with
      | some rest2 =>
          have hlen := checkUnd_length hcu
          simp only [List.length_cons] at hlen
          show '_' :: subUndAux rest.length rest2 = _
          rw [subUndAux_fuel rest.length rest2.length rest2 (by omega) (Nat.le_refl _)]
          rfl
      | none => rfl
    · rw [Bool.not_eq_true] at hsp
      rw [hsp]
      simp only [Bool.false_eq_true, if_false]
      rfl

theorem encodeLatin1_ascii {s : Str} (h : ∀ c ∈ s, c.toNat < 128) :
    encodeLatin1 s = some (s.map Char.toNat) := by
  induction s with
  | nil => rfl
  | cons c rest ih =>
      have hc := h c (List.mem_cons_self c rest)
      simp only [encodeLatin1, if_pos (by omega : c.toNat < 256)]
      rw [ih fun d hd => h d (List.mem_cons_of_mem c hd)]
      rfl

theorem ofNat_toNat_char (c : Char) : Char.ofNat c.toNat = c := by
  rcases c with ⟨v, hv⟩
  simp [Char.ofNat, Char.toNat, hv]
  rfl

theorem decodeUtf8Aux_fuel : ∀ (f1 f2 : Nat) (l : List Nat), l.length ≤ f1 → l.length ≤ f2 →
    decodeUtf8Aux f1 l = decodeUtf8Aux f2 l := by
  intro f1
  induction f1 with
  | zero =>
      intro f2 l h1 _
      have : l = [] := List.length_eq_zero.mp (Nat.le_zero.mp h1)
      subst this
      cases f2 <;> rfl
  | succ g1 ih =>
      intro f2 l h1 h2
      cases l with
      | nil => cases f2 <;> rfl
      | cons b rest =>
          cases f2 with
          | zero => simp at h2
          | succ g2 =>
              simp only [List.length_cons, Nat.succ_le_succ_iff] at h1 h2
              simp only [decodeUtf8Aux]
              split_ifs <;>
                first
                | rfl
                | (rw [ih g2 rest h1 h2])
                | (rw [ih g2 (rest.drop 1) (by simp; omega) (by simp; omega)])
                | (rw [ih g2 (rest.drop 2) (by simp; omega) (by simp; omega)])
                | (rw [ih g2 (rest.drop 3) (by simp; omega) (by simp; omega)])

theorem decodeUtf8_cons_ascii (b : Nat) (rest : List Nat) (hb : b < 128) :
    decodeUtf8 (b :: rest) = (decodeUtf8 rest).map (fun t => Char.ofNat b :: t) := by
  show decodeUtf8Aux (rest.length + 1) (b :: rest) = _
  simp only [decodeUtf8Aux]
  rw [if_pos hb]
  rfl

theorem decodeUtf8_ascii {s : Str} (h : ∀ c ∈ s, c.toNat < 128) :
    decodeUtf8 (s.map Char.toNat) = some s := by
  induction s with
  | nil => rfl
  | cons c rest ih =>
      have hc := h c (List.mem_cons_self c rest)
      rw [List.map_cons, decodeUtf8_cons_ascii _ _ hc,
        ih fun d hd => h d (List.mem_cons_of_mem c hd)]
      simp [ofNat_toNat_char]

theorem mojibakeStr_ascii {s : Str} (h : ∀ c ∈ s, c.toNat < 128) :
    mojibakeStr s = s := by
  unfold mojibakeStr
  split
  · rw [encodeLatin1_ascii h]
    simp only
    rw [decodeUtf8_ascii h]
  · rfl

theorem nfkd_ascii {c : Char} (h : c.toNat < 128) : nfkd c = [c] := by
  unfold nfkd
  rw [if_pos h]

theorem isMn_ascii {c : Char} (h : c.toNat < 128) : isMn c = false := by
  simp only [isMn]
  simp
  omega

theorem acentosStr_ascii {s : Str} (h : ∀ c ∈ s, c.toNat < 128) :
    acentosStr s = s := by
  induction s with
  | nil => rfl
  | cons c rest ih =>
      have hc := h c (List.mem_cons_self c rest)
      simp only [acentosStr, List.map_cons, List.join_cons, nfkd_ascii hc] at *
      simp only [List.singleton_append, List.filter_cons, isMn_ascii hc]
      simp only [Bool.not_false, if_true]
      rw [ih fun d hd => h d (List.mem_cons_of_mem c hd)]

theorem sub_virgula_nocomma : ∀ {s : Str}, ',' ∉ s → sub_virgula s = s := by
  intro s
  induction s using sub_virgula.induct with
  | case1 a b c rest hcond ih =>
      intro h
      have hb : b = ',' := by
        simp only [Bool.and_eq_true, beq_iff_eq] at hcond
        exact hcond.1.2
      exact absurd (hb ▸ List.mem_cons_of_mem a (List.mem_cons_self b _)) h
  | case2 a b c rest hcond ih =>
      intro h
      have hcond' : (isDigitA a && b == ',' && isDigitA c) = false := by
        revert hcond
        cases isDigitA a && b == ',' && isDigitA c <;> simp
      unfold sub_virgula
      rw [hcond']
      simp only [Bool.false_eq_true, if_false]
      rw [ih fun m => h (List.mem_cons_of_mem a m)]
  | case3 s hs =>
      intro _
      rcases s with _ | ⟨a, _ | ⟨b, _ | ⟨c, rest⟩⟩⟩
      · rfl
      · rfl
      · rfl
      · exact (hs a b c rest rfl).elim

theorem pre_id {s : Str} (hascii : ∀ c ∈ s, c.toNat < 128) (hcomma : ',' ∉ s) :
    sub_virgula (acentosStr (mojibakeStr s)) = s := by
  rw [mojibakeStr_ascii hascii, acentosStr_ascii hascii, sub_virgula_nocomma hcomma]

theorem isAlphaA_not_digit {c : Char} (h : isAlphaA c = true) : isDigitA c = false := by
  simp [isAlphaA] at h
  simp [isDigitA]
  omega

theorem isDigitA_not_alpha {c : Char} (h : isDigitA c = true) : isAlphaA c = false := by
  simp [isDigitA] at h
  simp [isAlphaA]
  omega

theorem isAlphaA_not_space {c : Char} (h : isAlphaA c = true) : isSpaceP c = false := by
  simp [isAlphaA] at h
  simp [isSpaceP]
  omega

theorem isUpperA_not_lower {c : Char} (h : isUpperA c = true) : isLowerA c = false := by
  simp [isUpperA] at h
  simp [isLowerA]
  omega

theorem isLowerA_alpha {c : Char} (h : isLowerA c = true) : isAlphaA c = true := by
  simp [isLowerA] at h
  simp [isAlphaA]
  omega

theorem isUpperA_alpha {c : Char} (h : isUpperA c = true) : isAlphaA c = true := by
  simp [isUpperA] at h
  simp [isAlphaA]
  omega

theorem isLowerA_not_space {c : Char} (h : isLowerA c = true) : isSpaceP c = false :=
  isAlphaA_not_space (isLowerA_alpha h)

theorem isUpperA_not_space {c : Char} (h : isUpperA c = true) : isSpaceP c = false :=
  isAlphaA_not_space (isUpperA_alpha h)

theorem pyStripLeft_eq_dropWhile : ∀ s : Str, pyStripLeft s = s.dropWhile isSpaceP := by
  intro s
  induction s with
  | nil => rfl
  | cons c t ih =>
      rw [pyStripLeft, List.dropWhile_cons]
      by_cases h : isSpaceP c = true
      · rw [if_pos h, if_pos h, ih]
      · rw [if_neg h, if_neg h]

theorem getLast?_cons_ne_nil {x : Char} {l : Str} (h : l ≠ []) :
    (x :: l).getLast? = l.getLast? := by
  cases l with
  | nil => exact absurd rfl h
  | cons a t => exact List.getLast?_cons_cons

theorem split2_cons_match {p q : Char → Bool} {a b : Char} (rest : Str)
    (ha : p a = true) (hb : q b = true) :
    split2 p q (a :: b :: rest) = a :: ' ' :: b :: split2 p q rest := by
  rw [split2, if_pos (by rw [ha, hb]; rfl)]

theorem split2_cons_step {p q : Char → Bool} {a : Char} {s : Str}
    (h : ∀ b, s.head? = some b → (p a && q b) = false) :
    split2 p q (a :: s) = a :: split2 p q s := by
  cases s with
  | nil => rfl
  | cons b rest =>
      have hb := h b rfl
      rw [split2, if_neg (by rw [hb]; exact Bool.false_ne_true)]

theorem split2_head? (p q : Char → Bool) : ∀ s : Str, (split2 p q s).head? = s.head? := by
  intro s
  rcases s with _ | ⟨a, _ | ⟨b, t⟩⟩
  · rfl
  · rfl
  · rw [split2]
    by_cases hc : (p a && q b) = true
    · rw [if_pos hc]
      rfl
    · rw [if_neg hc]
      rfl

theorem split2_ne_nil {p q : Char → Bool} {s : Str} (h : s ≠ []) : split2 p q s ≠ [] := by
  intro hn
  have h2 := split2_head? p q s
  rw [hn] at h2
  cases s with
  | nil => exact h rfl
  | cons a t => simp at h2

theorem split2_getLast? (p q : Char → Bool) : ∀ s : Str, (split2 p q s).getLast? = s.getLast? := by
  intro s
  induction s using split2.induct p q with
  | case1 a b rest hc ih =>
      rw [split2, if_pos hc]
      cases rest with
      | nil => rfl
      | cons c t =>
          rw [List.getLast?_cons_cons, List.getLast?_cons_cons,
            getLast?_cons_ne_nil (split2_ne_nil (List.cons_ne_nil c t)), ih,
            List.getLast?_cons_cons, getLast?_cons_ne_nil (List.cons_ne_nil c t)]
  | case2 a b rest hc ih =>
      rw [split2, if_neg hc,
        getLast?_cons_ne_nil (split2_ne_nil (List.cons_ne_nil b rest)), ih,
        List.getLast?_cons_cons]
  | case3 s h =>
      rcases s with _ | ⟨a, _ | ⟨b, t⟩⟩
      · rfl
      · rfl
      · exact (h a b t rfl).elim

theorem mem_split2 {p q : Char → Bool} {c : Char} : ∀ {s : Str},
    c ∈ split2 p q s → c ∈ s ∨ c = ' ' := by
  intro s
  induction s using split2.induct p q with
  | case1 a b rest hc ih =>
      intro h
      rw [split2, if_pos hc] at h
      simp only [List.mem_cons] at h
      rcases h with rfl | rfl | rfl | h
      · exact Or.inl (by simp)
      · exact Or.inr rfl
      · exact Or.inl (by simp)
      · rcases ih h with h2 | h2
        · exact Or.inl (by simp [h2])
        · exact Or.inr h2
  | case2 a b rest hc ih =>
      intro h
      rw [split2, if_neg hc] at h
      simp only [List.mem_cons] at h
      rcases h with rfl | h
      · exact Or.inl (by simp)
      · rcases ih h with h2 | h2
        · exact Or.inl (by simp [h2])
        · exact Or.inr h2
  | case3 s hs =>
      rcases s with _ | ⟨a, _ | ⟨b, t⟩⟩
      · exact fun h => Or.inl h
      · exact fun h => Or.inl h
      · exact (hs a b t rfl).elim

theorem split2_id {p q : Char → Bool} : ∀ {s : Str},
    List.Chain' (fun a b => (p a && q b) = false) s → split2 p q s = s := by
  intro s
  induction s using split2.induct p q with
  | case1 a b rest hc ih =>
      intro h
      rcases List.chain'_cons.mp h with ⟨hab, -⟩
      rw [hab] at hc
      exact absurd hc Bool.false_ne_true
  | case2 a b rest hc ih =>
      intro h
      rw [split2, if_neg hc, ih (List.chain'_cons.mp h).2]
  | case3 s hs =>
      intro _
      rcases s with _ | ⟨a, _ | ⟨b, t⟩⟩
      · rfl
      · rfl
      · exact (hs a b t rfl).elim

theorem chain'_split2 {R : Char → Char → Prop} {p q : Char → Bool}
    (hins : ∀ a b, p a = true → q b = true → R a ' ' ∧ R ' ' b) :
    ∀ {s : Str}, List.Chain' R s → List.Chain' R (split2 p q s) := by
  intro s
  induction s using split2.induct p q with
  | case1 a b rest hc ih =>
      intro h
      obtain ⟨h1, h2⟩ : p a = true ∧ q b = true := by simpa using hc
      rw [split2, if_pos hc]
      rcases List.chain'_cons.mp h with ⟨hR, hbr⟩
      rcases List.chain'_cons'.mp hbr with ⟨hbh, h3⟩
      refine List.chain'_cons.mpr ⟨(hins a b h1 h2).1, ?_⟩
      refine List.chain'_cons.mpr ⟨(hins a b h1 h2).2, ?_⟩
      refine List.chain'_cons'.mpr ⟨?_, ih h3⟩
      intro x hx
      rw [split2_head? p q rest] at hx
      exact hbh x hx
  | case2 a b rest hc ih =>
      intro h
      rcases List.chain'_cons.mp h with ⟨hR, h2⟩
      rw [split2, if_neg hc]
      refine List.chain'_cons'.mpr ⟨?_, ih h2⟩
      intro x hx
      rw [split2_head? p q (b :: rest)] at hx
      simp only [List.head?_cons, Option.mem_def, Option.some.injEq] at hx
      rw [← hx]
      exact hR
  | case3 s hs =>
      intro h
      rcases s with _ | ⟨a, _ | ⟨b, t⟩⟩
      · exact h
      · exact h
      · exact (hs a b t rfl).elim

theorem split2_no_pq {p q : Char → Bool} (hpq : ∀ c, q c = true → p c = false)
    (hpsp : p ' ' = false) (hqsp : q ' ' = false) :
    ∀ s : Str, List.Chain' (fun a b => (p a && q b) = false) (split2 p q s) := by
  intro s
  induction s using split2.induct p q with
  | case1 a b rest hc ih =>
      obtain ⟨h1, h2⟩ : p a = true ∧ q b = true := by simpa using hc
      rw [split2, if_pos hc]
      refine List.chain'_cons.mpr ⟨by rw [hqsp, Bool.and_false], ?_⟩
      refine List.chain'_cons.mpr ⟨by rw [hpsp, Bool.false_and], ?_⟩
      refine List.chain'_cons'.mpr ⟨?_, ih⟩
      intro x _
      rw [hpq b h2, Bool.false_and]
  | case2 a b rest hc ih =>
      rw [split2, if_neg hc]
      refine List.chain'_cons'.mpr ⟨?_, ih⟩
      intro x hx
      rw [split2_head? p q (b :: rest)] at hx
      simp only [List.head?_cons, Option.mem_def, Option.some.injEq] at hx
      rw [← hx]
      exact Bool.not_eq_true _ ▸ hc
  | case3 s hs =>
      rcases s with _ | ⟨a, _ | ⟨b, t⟩⟩
      · exact List.chain'_nil
      · exact List.chain'_singleton a
      · exact (hs a b t rfl).elim

theorem split2_dropWhile {p q : Char → Bool} (hp : ∀ c, p c = true → isSpaceP c = false) :
    ∀ s : Str, (split2 p q s).dropWhile isSpaceP = split2 p q (s.dropWhile isSpaceP) := by
  intro s
  induction s with
  | nil => rfl
  | cons c t ih =>
      by_cases hsp : isSpaceP c = true
      · have hpc : p c = false := by
          cases hh : p c
          · rfl
          · rw [hp c hh] at hsp
            exact absurd hsp Bool.false_ne_true
        rw [split2_cons_step (fun b _ => by rw [hpc, Bool.false_and]),
          List.dropWhile_cons, if_pos hsp, ih, List.dropWhile_cons, if_pos hsp]
      · obtain ⟨z, hz⟩ : ∃ z, split2 p q (c :: t) = c :: z := by
          have h2 := split2_head? p q (c :: t)
          cases hsz : split2 p q (c :: t) with
          | nil => rw [hsz] at h2; simp at h2
          | cons y z =>
              rw [hsz] at h2
              simp only [List.head?_cons, Option.some.injEq] at h2
              exact ⟨z, by rw [h2]⟩
        rw [hz, List.dropWhile_cons, if_neg hsp, ← hz,
          List.dropWhile_cons, if_neg hsp]

theorem underToSpace_id : ∀ {s : Str}, (∀ c ∈ s, ¬(c = '_')) → underToSpace s = s := by
  intro s
  induction s with
  | nil => exact fun _ => rfl
  | cons c t ih =>
      intro h
      show (if c = '_' then ' ' else c) :: underToSpace t = c :: t
      rw [if_neg (h c (List.mem_cons_self c t)),
        ih fun d hd => h d (List.mem_cons_of_mem c hd)]

theorem mem_underToSpace {c : Char} {s : Str} (h : c ∈ underToSpace s) : c ∈ s ∨ c = ' ' := by
  unfold underToSpace at h
  rcases List.mem_map.mp h with ⟨a, ha, hc⟩
  by_cases hu : a = '_'
  · rw [if_pos hu] at hc
    exact Or.inr hc.symm
  · rw [if_neg hu] at hc
    exact Or.inl (hc ▸ ha)

theorem tryJoin_suffix {s : Str} {d : Char} {t : Str} (h : tryJoin s = some (d, t)) :
    d :: t <:+ s := by
  unfold tryJoin at h
  rcases h1 : s.dropWhile isSpaceP with _ | ⟨x, r2⟩ <;> simp only [h1] at h
  · simp at h
  · split at h
    · rcases h2 : r2.dropWhile isSpaceP with _ | ⟨e, r4⟩ <;> simp only [h2] at h
      · simp at h
      · split at h
        · simp only [Option.some.injEq, Prod.mk.injEq] at h
          obtain ⟨rfl, rfl⟩ := h
          have hA : e :: r4 <:+ r2 := by
            rw [← h2]
            exact List.dropWhile_suffix isSpaceP
          have hB : x :: r2 <:+ s := by
            rw [← h1]
            exact List.dropWhile_suffix isSpaceP
          exact hA.trans ((List.suffix_cons x r2).trans hB)
        · simp at h
    · simp at h

theorem tryJoin_digit {s : Str} {d : Char} {t : Str} (h : tryJoin s = some (d, t)) :
    isDigitA d = true := by
  unfold tryJoin at h
  rcases h1 : s.dropWhile isSpaceP with _ | ⟨x, r2⟩ <;> simp only [h1] at h
  · simp at h
  · split at h
    · rcases h2 : r2.dropWhile isSpaceP with _ | ⟨e, r4⟩ <;> simp only [h2] at h
      · simp at h
      · split at h
        · rename_i hde
          simp only [Option.some.injEq, Prod.mk.injEq] at h
          obtain ⟨rfl, rfl⟩ := h
          exact hde
        · simp at h
    · simp at h

theorem joinX_head? : ∀ s : Str, (joinX s).head? = s.head? := by
  intro s
  cases s with
  | nil => rfl
  | cons c rest =>
      rw [joinX_cons]
      by_cases hd : isDigitA c = true
      · rw [if_pos hd]
        cases htj : tryJoin rest with
        | some p =>
            obtain ⟨d2, r2⟩ := p
            rfl
        | none => rfl
      · rw [if_neg hd]
        rfl

theorem joinX_ne_nil {s : Str} (h : s ≠ []) : joinX s ≠ [] := by
  intro hn
  have h2 := joinX_head? s
  rw [hn] at h2
  cases s with
  | nil => exact h rfl
  | cons a t => simp at h2

theorem joinX_cons_ex (c : Char) (t : Str) : ∃ z, joinX (c :: t) = c :: z := by
  have h2 := joinX_head? (c :: t)
  cases hsz : joinX (c :: t) with
  | nil =>
      rw [hsz] at h2
      simp at h2
  | cons y z =>
      rw [hsz] at h2
      simp only [List.head?_cons, Option.some.injEq] at h2
      exact ⟨z, by rw [h2]⟩

theorem joinX_getLast?_aux : ∀ (n : Nat) (s : Str), s.length ≤ n →
    (joinX s).getLast? = s.getLast? := by
  intro n
  induction n with
  | zero =>
      intro s h
      have hnil : s = [] := List.length_eq_zero.mp (Nat.le_zero.mp h)
      subst hnil
      rfl
  | succ m ih =>
      intro s hlen
      cases s with
      | nil => rfl
      | cons c rest =>
          simp only [List.length_cons, Nat.succ_le_succ_iff] at hlen
          rw [joinX_cons]
          by_cases hd : isDigitA c = true
          · rw [if_pos hd]
            cases htj : tryJoin rest with
            | some p =>
                obtain ⟨d2, r2⟩ := p
                have hsuf : d2 :: r2 <:+ rest := tryJoin_suffix htj
                have hlen2 := tryJoin_length htj
                have hrne : rest ≠ [] := by
                  intro hn
                  rw [hn] at hsuf
                  exact absurd (List.suffix_nil.mp hsuf) (List.cons_ne_nil d2 r2)
                obtain ⟨pre, hpre⟩ := hsuf
                rw [List.getLast?_cons_cons, List.getLast?_cons_cons,
                  getLast?_cons_ne_nil hrne, ← hpre,
                  List.getLast?_append_of_ne_nil _ (List.cons_ne_nil d2 r2)]
                cases hr2 : r2 with
                | nil => rfl
                | cons e t2 =>
                    rw [getLast?_cons_ne_nil (joinX_ne_nil (List.cons_ne_nil e t2)),
                      getLast?_cons_ne_nil (List.cons_ne_nil e t2)]
                    rw [hr2] at hlen2
                    exact ih (e :: t2) (by omega)
            | none =>
                cases rest with
                | nil => rfl
                | cons e t2 =>
                    rw [getLast?_cons_ne_nil (joinX_ne_nil (List.cons_ne_nil e t2)),
                      getLast?_cons_ne_nil (List.cons_ne_nil e t2)]
                    exact ih (e :: t2) hlen
          · rw [if_neg hd]
            cases rest with
            | nil => rfl
            | cons e t2 =>
                rw [getLast?_cons_ne_nil (joinX_ne_nil (List.cons_ne_nil e t2)),
                  getLast?_cons_ne_nil (List.cons_ne_nil e t2)]
                exact ih (e :: t2) hlen

theorem joinX_getLast? (s : Str) : (joinX s).getLast? = s.getLast? :=
  joinX_getLast?_aux s.length s (Nat.le_refl _)

theorem mem_joinX_aux : ∀ (n : Nat) (s : Str), s.length ≤ n →
    ∀ c ∈ joinX s, c ∈ s ∨ c = 'x' := by
  intro n
  induction n with
  | zero =>
      intro s h
      have hnil : s = [] := List.length_eq_zero.mp (Nat.le_zero.mp h)
      subst hnil
      intro c hc
      exact absurd hc (by simp [joinX, joinXAux])
  | succ m ih =>
      intro s hlen
      cases s with
      | nil =>
          intro c hc
          exact absurd hc (by simp [joinX, joinXAux])
      | cons a rest =>
          simp only [List.length_cons, Nat.succ_le_succ_iff] at hlen
          intro c hc
          rw [joinX_cons] at hc
          by_cases hd : isDigitA a = true
          · rw [if_pos hd] at hc
            cases htj : tryJoin rest with
            | some p =>
                obtain ⟨d2, r2⟩ := p
                rw [htj] at hc
                have hsuf : d2 :: r2 <:+ rest := tryJoin_suffix htj
                have hlen2 := tryJoin_length htj
                simp only [List.mem_cons] at hc
                rcases hc with rfl | rfl | rfl | hc
                · exact Or.inl (by simp)
                · exact Or.inr rfl
                · exact Or.inl (List.mem_cons_of_mem a (hsuf.subset (List.mem_cons_self c r2)))
                · rcases ih r2 (by omega) c hc with h2 | h2
                  · exact Or.inl (List.mem_cons_of_mem a
                      (hsuf.subset (List.mem_cons_of_mem d2 h2)))
                  · exact Or.inr h2
            | none =>
                rw [htj] at hc
                simp only [List.mem_cons] at hc
                rcases hc with rfl | hc
                · exact Or.inl (by simp)
                · rcases ih rest hlen c hc with h2 | h2
                  · exact Or.inl (List.mem_cons_of_mem a h2)
                  · exact Or.inr h2
          · rw [if_neg hd] at hc
            simp only [List.mem_cons] at hc
            rcases hc with rfl | hc
            · exact Or.inl (by simp)
            · rcases ih rest hlen c hc with h2 | h2
              · exact Or.inl (List.mem_cons_of_mem a h2)
              · exact Or.inr h2

theorem mem_joinX {c : Char} {s : Str} (h : c ∈ joinX s) : c ∈ s ∨ c = 'x' :=
  mem_joinX_aux s.length s (Nat.le_refl _) c h

theorem chain'_joinX_aux {R : Char → Char → Prop}
    (hx1 : ∀ d, isDigitA d = true → R d 'x') (hx2 : ∀ d, isDigitA d = true → R 'x' d) :
    ∀ (n : Nat) (s : Str), s.length ≤ n → List.Chain' R s → List.Chain' R (joinX s) := by
  intro n
  induction n with
  | zero =>
      intro s h _
      have hnil : s = [] := List.length_eq_zero.mp (Nat.le_zero.mp h)
      subst hnil
      exact List.chain'_nil
  | succ m ih =>
      intro s hlen hch
      cases s with
      | nil => exact List.chain'_nil
      | cons c rest =>
          simp only [List.length_cons, Nat.succ_le_succ_iff] at hlen
          rw [joinX_cons]
          rcases List.chain'_cons'.mp hch with ⟨hhd, hrest⟩
          by_cases hd : isDigitA c = true
          · rw [if_pos hd]
            cases htj : tryJoin rest with
            | some p =>
                obtain ⟨d2, r2⟩ := p
                have hsuf : d2 :: r2 <:+ rest := tryJoin_suffix htj
                have hlen2 := tryJoin_length htj
                have hd2 : isDigitA d2 = true := tryJoin_digit htj
                have hch2 : List.Chain' R (d2 :: r2) := hrest.suffix hsuf
                rcases List.chain'_cons'.mp hch2 with ⟨hd2hd, hr2⟩
                refine List.chain'_cons.mpr ⟨hx1 c hd, ?_⟩
                refine List.chain'_cons.mpr ⟨hx2 d2 hd2, ?_⟩
                refine List.chain'_cons'.mpr ⟨?_, ih r2 (by omega) hr2⟩
                intro x hx
                rw [joinX_head? r2] at hx
                exact hd2hd x hx
            | none =>
                refine List.chain'_cons'.mpr ⟨?_, ih rest hlen hrest⟩
                intro x hx
                rw [joinX_head? rest] at hx
                exact hhd x hx
          · rw [if_neg hd]
            refine List.chain'_cons'.mpr ⟨?_, ih rest hlen hrest⟩
            intro x hx
            rw [joinX_head? rest] at hx
            exact hhd x hx

theorem chain'_joinX {R : Char → Char → Prop} {s : Str}
    (hx1 : ∀ d, isDigitA d = true → R d 'x') (hx2 : ∀ d, isDigitA d = true → R 'x' d)
    (h : List.Chain' R s) : List.Chain' R (joinX s) :=
  chain'_joinX_aux hx1 hx2 s.length s (Nat.le_refl _) h

theorem joinX_dropWhile : ∀ s : Str,
    (joinX s).dropWhile isSpaceP = joinX (s.dropWhile isSpaceP) := by
  intro s
  induction s with
  | nil => rfl
  | cons c t ih =>
      by_cases hsp : isSpaceP c = true
      · have hd : isDigitA c = false := by
          cases hh : isDigitA c
          · rfl
          · rw [isDigitA_not_space hh] at hsp
            exact absurd hsp Bool.false_ne_true
        rw [joinX_cons, hd]
        simp only [Bool.false_eq_true, if_false]
        rw [List.dropWhile_cons, if_pos hsp, ih, List.dropWhile_cons, if_pos hsp]
      · obtain ⟨z, hz⟩ := joinX_cons_ex c t
        rw [hz, List.dropWhile_cons, if_neg hsp, ← hz, List.dropWhile_cons, if_neg hsp]

theorem x_not_digit {x : Char} (hx : (x == 'x' || x == 'X') = true) : isDigitA x = false := by
  rcases (by simpa using hx : x = 'x' ∨ x = 'X') with rfl | rfl <;> decide

theorem tryJoin_none_of_digit_head {d : Char} {t : Str} (hd : isDigitA d = true) :
    tryJoin (d :: t) = none := by
  have hne : (d == 'x' || d == 'X') = false := by
    cases hh : (d == 'x' || d == 'X')
    · rfl
    · rw [x_not_digit hh] at hd
      exact absurd hd Bool.false_ne_true
  unfold tryJoin
  rw [List.dropWhile_cons,
    if_neg (by rw [isDigitA_not_space hd]; exact Bool.false_ne_true)]
  split
  · rename_i x r2 heq
    injection heq with e1 e2
    subst e1
    rw [if_neg (by rw [hne]; exact Bool.false_ne_true)]
  · rename_i heq
    exact absurd heq (List.cons_ne_nil d t)

theorem joinX_nodigit_id : ∀ {s : Str}, (∀ c ∈ s, isDigitA c = false) → joinX s = s := by
  intro s
  induction s with
  | nil => exact fun _ => rfl
  | cons c t ih =>
      intro h
      rw [joinX_cons, h c (List.mem_cons_self c t)]
      simp only [Bool.false_eq_true, if_false]
      rw [ih fun d hd => h d (List.mem_cons_of_mem c hd)]

theorem joinX_alldigit_id : ∀ {s : Str}, (∀ c ∈ s, isDigitA c = true) → joinX s = s := by
  intro s
  induction s with
  | nil => exact fun _ => rfl
  | cons c t ih =>
      intro h
      rw [joinX_cons, if_pos (h c (List.mem_cons_self c t))]
      cases t with
      | nil =>
          rw [show tryJoin ([] : Str) = none from rfl]
          rfl
      | cons e t2 =>
          rw [tryJoin_none_of_digit_head (h e (by simp)),
            ih fun d hd => h d (List.mem_cons_of_mem c hd)]

theorem tryJoin_none_joinX {s : Str} (h : tryJoin s = none) : tryJoin (joinX s) = none := by
  rcases h1 : s.dropWhile isSpaceP with _ | ⟨x, r2⟩
  · unfold tryJoin
    rw [joinX_dropWhile, h1]
    rfl
  · by_cases hx : (x == 'x' || x == 'X') = true
    · unfold tryJoin at h
      rw [h1] at h
      have hred : (if (x == 'x' || x == 'X') = true then
          (match r2.dropWhile isSpaceP with
           | d :: r4 => if isDigitA d then some (d, r4) else none
           | [] => none)
          else none) = (none : Option (Char × Str)) := h
      rw [if_pos hx] at hred
      have hjx : joinX (x :: r2) = x :: joinX r2 := by
        rw [joinX_cons, x_not_digit hx]
        simp only [Bool.false_eq_true, if_false]
      unfold tryJoin
      rw [joinX_dropWhile, h1, hjx]
      show (if (x == 'x' || x == 'X') = true then
          (match (joinX r2).dropWhile isSpaceP with
           | d :: r4 => if isDigitA d then some (d, r4) else none
           | [] => none)
          else none) = (none : Option (Char × Str))
      rw [if_pos hx, joinX_dropWhile]
      rcases h2 : r2.dropWhile isSpaceP with _ | ⟨d, r4⟩
      · rfl
      · rw [h2] at hred
        have hred2 : (if isDigitA d = true then some (d, r4) else none)
            = (none : Option (Char × Str)) := hred
        have hd : isDigitA d = false := by
          cases hh : isDigitA d
          · rfl
          · rw [if_pos hh] at hred2
            exact absurd hred2 (by simp)
        obtain ⟨z, hz⟩ := joinX_cons_ex d r4
        rw [hz]
        show (if isDigitA d = true then some (d, z) else none) = (none : Option (Char × Str))
        rw [hd]
        simp only [Bool.false_eq_true, if_false]
    · obtain ⟨z, hz⟩ := joinX_cons_ex x r2
      unfold tryJoin
      rw [joinX_dropWhile, h1, hz]
      show (if (x == 'x' || x == 'X') = true then
          (match z.dropWhile isSpaceP with
           | d :: r4 => if isDigitA d then some (d, r4) else none
           | [] => none)
          else none) = (none : Option (Char × Str))
      rw [if_neg hx]

theorem joinX_idem_aux : ∀ (n : Nat) (s : Str), s.length ≤ n →
    joinX (joinX s) = joinX s := by
  intro n
  induction n with
  | zero =>
      intro s h
      have hnil : s = [] := List.length_eq_zero.mp (Nat.le_zero.mp h)
      subst hnil
      rfl
  | succ m ih =>
      intro s hlen
      cases s with
      | nil => rfl
      | cons c rest =>
          simp only [List.length_cons, Nat.succ_le_succ_iff] at hlen
          rw [joinX_cons]
          by_cases hd : isDigitA c = true
          · rw [if_pos hd]
            cases htj : tryJoin rest with
            | some p =>
                obtain ⟨d2, r2⟩ := p
                have hlen2 := tryJoin_length htj
                have hd2 : isDigitA d2 = true := tryJoin_digit htj
                have htj2 : tryJoin ('x' :: d2 :: joinX r2) = some (d2, joinX r2) := by
                  unfold tryJoin
                  rw [List.dropWhile_cons,
                    if_neg (by rw [show isSpaceP 'x' = false from by decide]
                               exact Bool.false_ne_true)]
                  show (if (('x' : Char) == 'x' || ('x' : Char) == 'X') = true then
                      (match (d2 :: joinX r2).dropWhile isSpaceP with
                       | d :: r4 => if isDigitA d then some (d, r4) else none
                       | [] => none)
                      else none) = some (d2, joinX r2)
                  rw [if_pos (by decide), List.dropWhile_cons,
                    if_neg (by rw [isDigitA_not_space hd2]; exact Bool.false_ne_true)]
                  show (if isDigitA d2 = true then some (d2, joinX r2) else none)
                    = some (d2, joinX r2)
                  rw [if_pos hd2]
                rw [joinX_cons, if_pos hd, htj2]
                show c :: 'x' :: d2 :: joinX (joinX r2) = c :: 'x' :: d2 :: joinX r2
                rw [ih r2 (by omega)]
            | none =>
                rw [joinX_cons, if_pos hd, tryJoin_none_joinX htj]
                show c :: joinX (joinX rest) = c :: joinX rest
                rw [ih rest hlen]
          · rw [if_neg hd, joinX_cons, if_neg hd, ih rest hlen]

theorem joinX_idem (s : Str) : joinX (joinX s) = joinX s :=
  joinX_idem_aux s.length s (Nat.le_refl _)

theorem mem_collapseWs_aux : ∀ (n : Nat) (s : Str), s.length ≤ n →
    ∀ c ∈ collapseWs s, c ∈ s ∨ c = ' ' := by
  intro n
  induction n with
  | zero =>
      intro s h
      have hnil : s = [] := List.length_eq_zero.mp (Nat.le_zero.mp h)
      subst hnil
      intro c hc
      exact Or.inl hc
  | succ m ih =>
      intro s hlen
      cases s with
      | nil => exact fun c hc => Or.inl hc
      | cons a rest =>
          simp only [List.length_cons, Nat.succ_le_succ_iff] at hlen
          intro c hc
          rw [collapseWs_cons] at hc
          by_cases hsp : isSpaceP a = true
          · rw [if_pos hsp] at hc
            simp only [List.mem_cons] at hc
            rcases hc with rfl | hc
            · exact Or.inr rfl
            · have hle : (rest.dropWhile isSpaceP).length ≤ m :=
                Nat.le_trans (dropWhile_length_le _ _) hlen
              rcases ih _ hle c hc with h2 | h2
              · exact Or.inl (List.mem_cons_of_mem a
                  ((List.dropWhile_sublist _).subset h2))
              · exact Or.inr h2
          · rw [if_neg hsp] at hc
            simp only [List.mem_cons] at hc
            rcases hc with rfl | hc
            · exact Or.inl (by simp)
            · rcases ih rest hlen c hc with h2 | h2
              · exact Or.inl (List.mem_cons_of_mem a h2)
              · exact Or.inr h2

theorem mem_collapseWs {c : Char} {s : Str} (h : c ∈ collapseWs s) : c ∈ s ∨ c = ' ' :=
  mem_collapseWs_aux s.length s (Nat.le_refl _) c h

theorem collapseWs_space_mem : ∀ (n : Nat) (s : Str), s.length ≤ n →
    ∀ c ∈ collapseWs s, isSpaceP c = true → c = ' ' := by
  intro n
  induction n with
  | zero =>
      intro s h
      have hnil : s = [] := List.length_eq_zero.mp (Nat.le_zero.mp h)
      subst hnil
      intro c hc
      exact absurd hc (by simp [collapseWs, collapseWsAux])
  | succ m ih =>
      intro s hlen
      cases s with
      | nil =>
          intro c hc
          exact absurd hc (by simp [collapseWs, collapseWsAux])
      | cons a rest =>
          simp only [List.length_cons, Nat.succ_le_succ_iff] at hlen
          intro c hc hspc
          rw [collapseWs_cons] at hc
          by_cases hsp : isSpaceP a = true
          · rw [if_pos hsp] at hc
            simp only [List.mem_cons] at hc
            rcases hc with rfl | hc
            · rfl
            · exact ih _ (Nat.le_trans (dropWhile_length_le _ _) hlen) c hc hspc
          · rw [if_neg hsp] at hc
            simp only [List.mem_cons] at hc
            rcases hc with rfl | hc
            · exact absurd hspc (by rw [Bool.not_eq_true] at hsp; rw [hsp]; simp)
            · exact ih rest hlen c hc hspc

theorem collapseWs_head?_nonspace {s : Str} {c : Char} (h : s.head? = some c)
    (hns : isSpaceP c = false) : (collapseWs s).head? = some c := by
  cases s with
  | nil => simp at h
  | cons a rest =>
      simp only [List.head?_cons, Option.some.injEq] at h
      subst h
      rw [collapseWs_cons, if_neg (by rw [hns]; exact Bool.false_ne_true)]
      rfl

theorem chain'_collapseWs_aux : ∀ (n : Nat) (s : Str), s.length ≤ n →
    List.Chain' (fun a b => (isSpaceP a && isSpaceP b) = false) (collapseWs s) := by
  intro n
  induction n with
  | zero =>
      intro s h
      have hnil : s = [] := List.length_eq_zero.mp (Nat.le_zero.mp h)
      subst hnil
      exact List.chain'_nil
  | succ m ih =>
      intro s hlen
      cases s with
      | nil => exact List.chain'_nil
      | cons a rest =>
          simp only [List.length_cons, Nat.succ_le_succ_iff] at hlen
          rw [collapseWs_cons]
          by_cases hsp : isSpaceP a = true
          · rw [if_pos hsp]
            refine List.chain'_cons'.mpr
              ⟨?_, ih _ (Nat.le_trans (dropWhile_length_le _ _) hlen)⟩
            intro x hx
            cases hdw : rest.dropWhile isSpaceP with
            | nil =>
                rw [hdw] at hx
                simp [collapseWs, collapseWsAux] at hx
            | cons e t =>
                have hens : isSpaceP e = false := dropWhile_head_false isSpaceP rest e t hdw
                rw [hdw, collapseWs_head?_nonspace (by rfl) hens] at hx
                simp only [Option.mem_def, Option.some.injEq] at hx
                subst hx
                rw [hens, Bool.and_false]
          · rw [if_neg hsp]
            refine List.chain'_cons'.mpr ⟨?_, ih rest hlen⟩
            intro x _
            rw [Bool.not_eq_true] at hsp
            rw [hsp, Bool.false_and]

theorem chain'_collapseWs (s : Str) :
    List.Chain' (fun a b => (isSpaceP a && isSpaceP b) = false) (collapseWs s) :=
  chain'_collapseWs_aux s.length s (Nat.le_refl _)

theorem collapseWs_id : ∀ (n : Nat) (s : Str), s.length ≤ n →
    (∀ c ∈ s, isSpaceP c = true → c = ' ') →
    List.Chain' (fun a b => (isSpaceP a && isSpaceP b) = false) s →
    collapseWs s = s := by
  intro n
  induction n with
  | zero =>
      intro s h _ _
      have hnil : s = [] := List.length_eq_zero.mp (Nat.le_zero.mp h)
      subst hnil
      rfl
  | succ m ih =>
      intro s hlen hsp hch
      cases s with
      | nil => rfl
      | cons a rest =>
          simp only [List.length_cons, Nat.succ_le_succ_iff] at hlen
          rcases List.chain'_cons'.mp hch with ⟨hhd, hch2⟩
          rw [collapseWs_cons]
          by_cases ha : isSpaceP a = true
          · rw [if_pos ha]
            have ha' : a = ' ' := hsp a (by simp) ha
            have hdw : rest.dropWhile isSpaceP = rest := by
              cases rest with
              | nil => rfl
              | cons e t =>
                  have he := hhd e (by simp)
                  rw [ha] at he
                  simp only [Bool.true_and] at he
                  rw [List.dropWhile_cons, if_neg (by rw [he]; exact Bool.false_ne_true)]
            rw [hdw, ih rest hlen (fun c hc h2 => hsp c (List.mem_cons_of_mem a hc) h2) hch2,
              ha']
          · rw [if_neg ha,
              ih rest hlen (fun c hc h2 => hsp c (List.mem_cons_of_mem a hc) h2) hch2]

theorem pyStrip_infix_of (s : Str) : pyStrip s <:+: s := by
  unfold pyStrip
  rw [pyStripLeft_eq_dropWhile, pyStripLeft_eq_dropWhile]
  have hA : s.dropWhile isSpaceP <:+ s := List.dropWhile_suffix isSpaceP
  have hB : (s.dropWhile isSpaceP).reverse.dropWhile isSpaceP
      <:+ (s.dropWhile isSpaceP).reverse := List.dropWhile_suffix isSpaceP
  have hP : ((s.dropWhile isSpaceP).reverse.dropWhile isSpaceP).reverse
      <+: s.dropWhile isSpaceP := by
    rw [← List.reverse_suffix, List.reverse_reverse]
    exact hB
  exact hP.isInfix.trans hA.isInfix

theorem chain'_infix_of {R : Char → Char → Prop} {l m : Str}
    (h : List.Chain' R l) (hi : m <:+: l) : List.Chain' R m :=
  List.Chain'.infix h hi

theorem chain'_of_all {R : Char → Char → Prop} : ∀ {t : Str},
    (∀ a b, a ∈ t → b ∈ t → R a b) → List.Chain' R t := by
  intro t
  induction t with
  | nil => exact fun _ => List.chain'_nil
  | cons a r ih =>
      intro h
      refine List.chain'_cons'.mpr
        ⟨?_, ih fun x y hx hy => h x y (List.mem_cons_of_mem a hx) (List.mem_cons_of_mem a hy)⟩
      intro b hb
      have hbr : b ∈ r := by
        cases r with
        | nil => simp at hb
        | cons c t2 =>
            simp only [List.head?_cons, Option.mem_def, Option.some.injEq] at hb
            rw [← hb]
            simp
      exact h a b (by simp) (List.mem_cons_of_mem a hbr)

theorem collapseWs_id_nospace {t : Str} (ht : ∀ c ∈ t, isSpaceP c = false) :
    collapseWs t = t :=
  collapseWs_id t.length t (Nat.le_refl _)
    (fun c hc h2 => absurd h2 (by rw [ht c hc]; exact Bool.false_ne_true))
    (chain'_of_all fun a b ha _ => by rw [ht a ha, Bool.false_and])

theorem dropWhile_append_nospace {t : Str} (ht : ∀ c ∈ t, isSpaceP c = false) :
    ∀ s : Str, (s ++ t).dropWhile isSpaceP = s.dropWhile isSpaceP ++ t := by
  intro s
  induction s with
  | nil =>
      simp only [List.nil_append, List.dropWhile_nil]
      cases t with
      | nil => rfl
      | cons e t2 =>
          rw [List.dropWhile_cons,
            if_neg (by rw [ht e (by simp)]; exact Bool.false_ne_true)]
  | cons e t2 ih =>
      rw [List.cons_append, List.dropWhile_cons, List.dropWhile_cons]
      by_cases he : isSpaceP e = true
      · rw [if_pos he, if_pos he, ih]
      · rw [if_neg he, if_neg he, List.cons_append]

theorem collapseWs_append_nospace : ∀ (n : Nat) (s t : Str), s.length ≤ n →
    (∀ c ∈ t, isSpaceP c = false) →
    collapseWs (s ++ t) = collapseWs s ++ t := by
  intro n
  induction n with
  | zero =>
      intro s t h ht
      have hnil : s = [] := List.length_eq_zero.mp (Nat.le_zero.mp h)
      subst hnil
      show collapseWs t = collapseWs [] ++ t
      rw [collapseWs_id_nospace ht]
      rfl
  | succ m ih =>
      intro s t hlen ht
      cases s with
      | nil =>
          show collapseWs t = collapseWs [] ++ t
          rw [collapseWs_id_nospace ht]
          rfl
      | cons a rest =>
          simp only [List.length_cons, Nat.succ_le_succ_iff] at hlen
          rw [List.cons_append, collapseWs_cons, collapseWs_cons]
          by_cases hsp : isSpaceP a = true
          · rw [if_pos hsp, if_pos hsp, dropWhile_append_nospace ht,
              ih _ t (Nat.le_trans (dropWhile_length_le _ _) hlen) ht, List.cons_append]
          · rw [if_neg hsp, if_neg hsp, ih rest t hlen ht, List.cons_append]

theorem dropWhile_head?_not {p : Char → Bool} {s : Str} {c : Char}
    (h : (s.dropWhile p).head? = some c) : p c = false := by
  cases hdw : s.dropWhile p with
  | nil =>
      rw [hdw] at h
      simp at h
  | cons e t =>
      rw [hdw] at h
      simp only [List.head?_cons, Option.some.injEq] at h
      rw [← h]
      exact dropWhile_head_false p s e t hdw

theorem pyStripLeft_head {s : Str} {c : Char} (h : (pyStripLeft s).head? = some c) :
    isSpaceP c = false := by
  rw [pyStripLeft_eq_dropWhile] at h
  exact dropWhile_head?_not h

theorem dropWhile_getLast? {p : Char → Bool} {s : Str} (h : s.dropWhile p ≠ []) :
    (s.dropWhile p).getLast? = s.getLast? := by
  obtain ⟨t, ht⟩ := List.dropWhile_suffix (l := s) (p := p)
  conv_rhs => rw [← ht]
  rw [List.getLast?_append_of_ne_nil _ h]

theorem pyStrip_head {s : Str} {c : Char} (h : (pyStrip s).head? = some c) :
    isSpaceP c = false := by
  unfold pyStrip at h
  rw [List.head?_reverse] at h
  rw [pyStripLeft_eq_dropWhile ((pyStripLeft s).reverse)] at h
  have hne : ((pyStripLeft s).reverse.dropWhile isSpaceP) ≠ [] := by
    intro hn
    rw [hn] at h
    simp at h
  rw [dropWhile_getLast? hne, List.getLast?_reverse] at h
  exact pyStripLeft_head h

theorem pyStrip_getLast {s : Str} {c : Char} (h : (pyStrip s).getLast? = some c) :
    isSpaceP c = false := by
  unfold pyStrip at h
  rw [List.getLast?_reverse] at h
  exact pyStripLeft_head h

theorem pyStripLeft_id_head {s : Str} (h : ∀ c, s.head? = some c → isSpaceP c = false) :
    pyStripLeft s = s := by
  cases s with
  | nil => rfl
  | cons a t =>
      show (if isSpaceP a then pyStripLeft t else a :: t) = a :: t
      rw [if_neg (by rw [h a rfl]; exact Bool.false_ne_true)]

theorem pyStrip_id2 {s : Str} (h1 : ∀ c, s.head? = some c → isSpaceP c = false)
    (h2 : ∀ c, s.getLast? = some c → isSpaceP c = false) : pyStrip s = s := by
  unfold pyStrip
  rw [pyStripLeft_id_head h1, pyStripLeft_id_head ?hr, List.reverse_reverse]
  case hr =>
    intro c hc
    rw [List.head?_reverse] at hc
    exact h2 c hc

theorem pyStrip_idem (s : Str) : pyStrip (pyStrip s) = pyStrip s :=
  pyStrip_id2 (fun _ hc => pyStrip_head hc) (fun _ hc => pyStrip_getLast hc)

theorem pyStrip_append_nospace {s t : Str} (hne : t ≠ [])
    (ht : ∀ c ∈ t, isSpaceP c = false) :
    pyStrip (s ++ t) = pyStripLeft s ++ t := by
  unfold pyStrip
  rw [pyStripLeft_eq_dropWhile, pyStripLeft_eq_dropWhile (s ++ t),
    dropWhile_append_nospace ht s, List.reverse_append]
  have hstop : (t.reverse ++ (s.dropWhile isSpaceP).reverse).dropWhile isSpaceP
      = t.reverse ++ (s.dropWhile isSpaceP).reverse := by
    cases htr2 : t.reverse with
    | nil => exact absurd (by simpa using htr2) hne
    | cons e r =>
        have he : e ∈ t := by
          have h3 : e ∈ t.reverse := by
            rw [htr2]
            simp
          simpa using h3
        rw [List.cons_append, List.dropWhile_cons,
          if_neg (by rw [ht e he]; exact Bool.false_ne_true)]
  rw [hstop, List.reverse_append, List.reverse_reverse, List.reverse_reverse,
    pyStripLeft_eq_dropWhile]

theorem checkUnd_suffix {s t : Str} (h : checkUnd s = some t) : t <:+ s := by
  unfold checkUnd at h
  rcases h1 : s.dropWhile isSpaceP with _ | ⟨x, r2⟩ <;> simp only [h1] at h
  · simp at h
  · split at h
    · simp only [Option.some.injEq] at h
      subst h
      have hA : r2.dropWhile isSpaceP <:+ r2 := List.dropWhile_suffix isSpaceP
      have hB : x :: r2 <:+ s := by
        rw [← h1]
        exact List.dropWhile_suffix isSpaceP
      exact hA.trans ((List.suffix_cons x r2).trans hB)
    · simp at h

theorem checkUnd_some_head {s t : Str} (h : checkUnd s = some t) :
    ∀ c, t.head? = some c → isSpaceP c = false := by
  unfold checkUnd at h
  rcases h1 : s.dropWhile isSpaceP with _ | ⟨x, r2⟩ <;> simp only [h1] at h
  · simp at h
  · split at h
    · simp only [Option.some.injEq] at h
      subst h
      intro c hc
      exact dropWhile_head?_not hc
    · simp at h

theorem mem_subUnd_aux : ∀ (n : Nat) (s : Str), s.length ≤ n →
    ∀ c ∈ subUnd s, c ∈ s ∨ c = '_' := by
  intro n
  induction n with
  | zero =>
      intro s h
      have hnil : s = [] := List.length_eq_zero.mp (Nat.le_zero.mp h)
      subst hnil
      intro c hc
      exact Or.inl hc
  | succ m ih =>
      intro s hlen
      cases s with
      | nil => exact fun c hc => Or.inl hc
      | cons a rest =>
          simp only [List.length_cons, Nat.succ_le_succ_iff] at hlen
          intro c hc
          rw [subUnd_cons] at hc
          by_cases hund : a = '_'
          · rw [if_pos hund] at hc
            simp only [List.mem_cons] at hc
            rcases hc with rfl | hc
            · exact Or.inr rfl
            · rcases ih _ (Nat.le_trans (dropWhile_length_le _ _) hlen) c hc with h2 | h2
              · exact Or.inl (List.mem_cons_of_mem a ((List.dropWhile_sublist _).subset h2))
              · exact Or.inr h2
          · rw [if_neg hund] at hc
            by_cases hsp : isSpaceP a = true
            · rw [if_pos hsp] at hc
              cases hcu : checkUnd (a :: rest) with
              | some r2 =>
                  rw [hcu] at hc
                  have hlen2 := checkUnd_length hcu
                  simp only [List.length_cons] at hlen2
                  simp only [List.mem_cons] at hc
                  rcases hc with rfl | hc
                  · exact Or.inr rfl
                  · rcases ih r2 (by omega) c hc with h2 | h2
                    · exact Or.inl ((checkUnd_suffix hcu).subset h2)
                    · exact Or.inr h2
              | none =>
                  rw [hcu] at hc
                  simp only [List.mem_cons] at hc
                  rcases hc with rfl | hc
                  · exact Or.inl (by simp)
                  · rcases ih rest hlen c hc with h2 | h2
                    · exact Or.inl (List.mem_cons_of_mem a h2)
                    · exact Or.inr h2
            · rw [if_neg hsp] at hc
              simp only [List.mem_cons] at hc
              rcases hc with rfl | hc
              · exact Or.inl (by simp)
              · rcases ih rest hlen c hc with h2 | h2
                · exact Or.inl (List.mem_cons_of_mem a h2)
                · exact Or.inr h2

theorem mem_subUnd {c : Char} {s : Str} (h : c ∈ subUnd s) : c ∈ s ∨ c = '_' :=
  mem_subUnd_aux s.length s (Nat.le_refl _) c h

theorem subUnd_head? : ∀ s : Str, (subUnd s).head? = s.head? ∨ (subUnd s).head? = some '_' := by
  intro s
  cases s with
  | nil => exact Or.inl rfl
  | cons c rest =>
      rw [subUnd_cons]
      by_cases hund : c = '_'
      · rw [if_pos hund, hund]
        exact Or.inl rfl
      · rw [if_neg hund]
        by_cases hsp : isSpaceP c = true
        · rw [if_pos hsp]
          cases hcu : checkUnd (c :: rest) with
          | some r2 => exact Or.inr rfl
          | none => exact Or.inl rfl
        · rw [if_neg hsp]
          exact Or.inl rfl

theorem subUnd_head_und : ∀ s : Str, (subUnd s).head? = some '_' →
    (s.dropWhile isSpaceP).head? = some '_' := by
  intro s
  cases s with
  | nil =>
      intro h
      exact absurd h (by simp [subUnd, subUndAux])
  | cons c rest =>
      rw [subUnd_cons]
      by_cases hund : c = '_'
      · rw [if_pos hund]
        intro _
        rw [hund, List.dropWhile_cons,
          if_neg (by rw [show isSpaceP '_' = false from by decide]; exact Bool.false_ne_true)]
        rfl
      · rw [if_neg hund]
        by_cases hsp : isSpaceP c = true
        · rw [if_pos hsp]
          cases hcu : checkUnd (c :: rest) with
          | some r2 =>
              intro _
              unfold checkUnd at hcu
              rcases h1 : (c :: rest).dropWhile isSpaceP with _ | ⟨x, r3⟩ <;>
                simp only [h1] at hcu
              · simp at hcu
              · split at hcu
                · rename_i hx
                  rw [hx]
                  rfl
                · simp at hcu
          | none =>
              intro h
              simp only [List.head?_cons, Option.some.injEq] at h
              exact absurd h hund
        · rw [if_neg hsp]
          intro h
          simp only [List.head?_cons, Option.some.injEq] at h
          exact absurd h hund

theorem chain'_subUnd_aux {R : Char → Char → Prop}
    (hu1 : ∀ c, R c '_') (hu2 : ∀ c, R '_' c) :
    ∀ (n : Nat) (s : Str), s.length ≤ n → List.Chain' R s → List.Chain' R (subUnd s) := by
  intro n
  induction n with
  | zero =>
      intro s h _
      have hnil : s = [] := List.length_eq_zero.mp (Nat.le_zero.mp h)
      subst hnil
      exact List.chain'_nil
  | succ m ih =>
      intro s hlen hch
      cases s with
      | nil => exact List.chain'_nil
      | cons c rest =>
          simp only [List.length_cons, Nat.succ_le_succ_iff] at hlen
          rcases List.chain'_cons'.mp hch with ⟨hhd, hrest⟩
          rw [subUnd_cons]
          by_cases hund : c = '_'
          · rw [if_pos hund]
            refine List.chain'_cons'.mpr ⟨fun x _ => hu2 x, ?_⟩
            exact ih _ (Nat.le_trans (dropWhile_length_le _ _) hlen)
              (hrest.suffix (List.dropWhile_suffix isSpaceP))
          · rw [if_neg hund]
            by_cases hsp : isSpaceP c = true
            · rw [if_pos hsp]
              cases hcu : checkUnd (c :: rest) with
              | some r2 =>
                  have hlen2 := checkUnd_length hcu
                  simp only [List.length_cons] at hlen2
                  refine List.chain'_cons'.mpr ⟨fun x _ => hu2 x, ?_⟩
                  exact ih r2 (by omega) (hch.suffix (checkUnd_suffix hcu))
              | none =>
                  refine List.chain'_cons'.mpr ⟨?_, ih rest hlen hrest⟩
                  intro x hx
                  rcases subUnd_head? rest with heq | heq
                  · rw [heq] at hx
                    exact hhd x hx
                  · rw [heq] at hx
                    simp only [Option.mem_def, Option.some.injEq] at hx
                    rw [← hx]
                    exact hu1 c
            · rw [if_neg hsp]
              refine List.chain'_cons'.mpr ⟨?_, ih rest hlen hrest⟩
              intro x hx
              rcases subUnd_head? rest with heq | heq
              · rw [heq] at hx
                exact hhd x hx
              · rw [heq] at hx
                simp only [Option.mem_def, Option.some.injEq] at hx
                rw [← hx]
                exact hu1 c

theorem chain'_subUnd {R : Char → Char → Prop} {s : Str}
    (hu1 : ∀ c, R c '_') (hu2 : ∀ c, R '_' c) (h : List.Chain' R s) :
    List.Chain' R (subUnd s) :=
  chain'_subUnd_aux hu1 hu2 s.length s (Nat.le_refl _) h

theorem chain'_subUnd_spund : ∀ (n : Nat) (s : Str), s.length ≤ n →
    List.Chain' (fun a b => ¬(a = '_' ∧ isSpaceP b = true) ∧ ¬(isSpaceP a = true ∧ b = '_'))
      (subUnd s) := by
  intro n
  induction n with
  | zero =>
      intro s h
      have hnil : s = [] := List.length_eq_zero.mp (Nat.le_zero.mp h)
      subst hnil
      exact List.chain'_nil
  | succ m ih =>
      intro s hlen
      cases s with
      | nil => exact List.chain'_nil
      | cons c rest =>
          simp only [List.length_cons, Nat.succ_le_succ_iff] at hlen
          rw [subUnd_cons]
          by_cases hund : c = '_'
          · rw [if_pos hund]
            refine List.chain'_cons'.mpr
              ⟨?_, ih _ (Nat.le_trans (dropWhile_length_le _ _) hlen)⟩
            intro x hx
            have hxs : isSpaceP x = false := by
              rcases subUnd_head? (rest.dropWhile isSpaceP) with heq | heq
              · rw [heq] at hx
                exact dropWhile_head?_not hx
              · rw [heq] at hx
                simp only [Option.mem_def, Option.some.injEq] at hx
                rw [← hx]
                decide
            exact ⟨fun hc => absurd hc.2 (by rw [hxs]; exact Bool.false_ne_true),
              fun hc => absurd hc.1 (by decide)⟩
          · rw [if_neg hund]
            by_cases hsp : isSpaceP c = true
            · rw [if_pos hsp]
              cases hcu : checkUnd (c :: rest) with
              | some r2 =>
                  have hlen2 := checkUnd_length hcu
                  simp only [List.length_cons] at hlen2
                  refine List.chain'_cons'.mpr ⟨?_, ih r2 (by omega)⟩
                  intro x hx
                  have hxs : isSpaceP x = false := by
                    rcases subUnd_head? r2 with heq | heq
                    · rw [heq] at hx
                      exact checkUnd_some_head hcu x hx
                    · rw [heq] at hx
                      simp only [Option.mem_def, Option.some.injEq] at hx
                      rw [← hx]
                      decide
                  exact ⟨fun hc => absurd hc.2 (by rw [hxs]; exact Bool.false_ne_true),
                    fun hc => absurd hc.1 (by decide)⟩
              | none =>
                  refine List.chain'_cons'.mpr ⟨?_, ih rest hlen⟩
                  intro x hx
                  have hxu : ¬(x = '_') := by
                    intro hxeq
                    have hdw : (rest.dropWhile isSpaceP).head? = some '_' := by
                      rcases subUnd_head? rest with heq | heq
                      · rw [heq] at hx
                        cases rest with
                        | nil => simp at hx
                        | cons e t =>
                            simp only [List.head?_cons, Option.mem_def,
                              Option.some.injEq] at hx
                            rw [List.dropWhile_cons,
                              if_neg (by rw [hx, hxeq]; decide)]
                            rw [hx, hxeq]
                            rfl
                      · rw [heq] at hx
                        simp only [Option.mem_def, Option.some.injEq] at hx
                        exact subUnd_head_und rest heq
                    obtain ⟨z, hz⟩ : ∃ z, rest.dropWhile isSpaceP = '_' :: z := by
                      cases hdw2 : rest.dropWhile isSpaceP with
                      | nil => rw [hdw2] at hdw; simp at hdw
                      | cons e t =>
                          rw [hdw2] at hdw
                          simp only [List.head?_cons, Option.some.injEq] at hdw
                          exact ⟨t, by rw [hdw]⟩
                    unfold checkUnd at hcu
                    rw [List.dropWhile_cons, if_pos hsp, hz] at hcu
                    have hcu2 : (if ('_' : Char) = '_' then some (z.dropWhile isSpaceP)
                        else none) = (none : Option Str) := hcu
                    rw [if_pos rfl] at hcu2
                    exact absurd hcu2 (by simp)
                  exact ⟨fun hc => absurd hc.1 (by
                      intro hceq
                      rw [hceq] at hsp
                      exact absurd hsp (by decide)),
                    fun hc => absurd hc.2 hxu⟩
            · rw [if_neg hsp]
              refine List.chain'_cons'.mpr ⟨?_, ih rest hlen⟩
              intro x _
              exact ⟨fun hc => absurd hc.1 hund, fun hc => absurd hc.1 hsp⟩

theorem subUnd_id_aux : ∀ (n : Nat) (s : Str), s.length ≤ n →
    List.Chain' (fun a b => (isSpaceP a && isSpaceP b) = false) s →
    List.Chain' (fun a b => ¬(a = '_' ∧ isSpaceP b = true) ∧ ¬(isSpaceP a = true ∧ b = '_')) s →
    subUnd s = s := by
  intro n
  induction n with
  | zero =>
      intro s h _ _
      have hnil : s = [] := List.length_eq_zero.mp (Nat.le_zero.mp h)
      subst hnil
      rfl
  | succ m ih =>
      intro s hlen hsp2 hru
      cases s with
      | nil => rfl
      | cons c rest =>
          simp only [List.length_cons, Nat.succ_le_succ_iff] at hlen
          rcases List.chain'_cons'.mp hsp2 with ⟨hsphd, hsp2r⟩
          rcases List.chain'_cons'.mp hru with ⟨hruhd, hrur⟩
          rw [subUnd_cons]
          by_cases hund : c = '_'
          · rw [if_pos hund]
            have hdw : rest.dropWhile isSpaceP = rest := by
              cases rest with
              | nil => rfl
              | cons e t =>
                  have he := hruhd e (by rfl)
                  have hens : isSpaceP e = false := by
                    cases hh : isSpaceP e
                    · rfl
                    · exact absurd ⟨hund, hh⟩ he.1
                  rw [List.dropWhile_cons, if_neg (by rw [hens]; exact Bool.false_ne_true)]
            rw [hdw, ih rest hlen hsp2r hrur, hund]
          · rw [if_neg hund]
            by_cases hsp : isSpaceP c = true
            · rw [if_pos hsp]
              have hcu : checkUnd (c :: rest) = none := by
                unfold checkUnd
                rw [List.dropWhile_cons, if_pos hsp]
                cases rest with
                | nil => rfl
                | cons e t =>
                    have hsphe := hsphd e (by rfl)
                    have hens : isSpaceP e = false := by
                      cases hh : isSpaceP e
                      · rfl
                      · rw [hsp, hh] at hsphe
                        exact absurd hsphe (by simp)
                    have hrue := hruhd e (by rfl)
                    have heu : ¬(e = '_') := fun heq => absurd ⟨hsp, heq⟩ hrue.2
                    rw [List.dropWhile_cons, if_neg (by rw [hens]; exact Bool.false_ne_true)]
                    show (if e = '_' then some (t.dropWhile isSpaceP) else none) = none
                    rw [if_neg heu]
              rw [hcu]
              show c :: subUnd rest = c :: rest
              rw [ih rest hlen hsp2r hrur]
            · rw [if_neg hsp]
              rw [ih rest hlen hsp2r hrur]

theorem subUnd_id {s : Str}
    (h1 : List.Chain' (fun a b => (isSpaceP a && isSpaceP b) = false) s)
    (h2 : List.Chain' (fun a b => ¬(a = '_' ∧ isSpaceP b = true)
      ∧ ¬(isSpaceP a = true ∧ b = '_')) s) :
    subUnd s = s :=
  subUnd_id_aux s.length s (Nat.le_refl _) h1 h2

theorem isDigitA_isDigitU {c : Char} (h : isDigitA c = true) : isDigitU c = true := by
  simp [isDigitA] at h
  simp [isDigitU, ndRanges]
  omega

theorem isDigitU_ascii {c : Char} (h : isDigitU c = true) (ha : c.toNat < 128) :
    isDigitA c = true := by
  simp [isDigitU, ndRanges] at h
  simp [isDigitA]
  omega

theorem isDigitU_not_space {c : Char} (h : isDigitU c = true) : isSpaceP c = false := by
  simp [isDigitU, ndRanges] at h
  simp [isSpaceP]
  omega

theorem size_fullmatch_intro (pre D1 D2 : Str) (xc : Char)
    (hxc : xc = 'x' ∨ xc = 'X')
    (hD1 : D1 ≠ []) (hD2 : D2 ≠ [])
    (hd1 : ∀ c ∈ D1, isDigitU c = true) (hd2 : ∀ c ∈ D2, isDigitU c = true)
    (hnl : ('\n' : Char) ∉ pre) :
    size_fullmatch (pre ++ '_' :: D1 ++ xc :: D2) = true := by
  have hxcd : isDigitU xc = false := by
    rcases hxc with rfl | rfl <;> decide
  have hxcx : (xc == 'x' || xc == 'X') = true := by
    rcases hxc with rfl | rfl <;> decide
  have hrev : (pre ++ '_' :: D1 ++ xc :: D2).reverse
      = D2.reverse ++ xc :: (D1.reverse ++ '_' :: pre.reverse) := by
    simp
  have htw : (D2.reverse ++ xc :: (D1.reverse ++ '_' :: pre.reverse)).takeWhile isDigitU
      = D2.reverse := by
    rw [takeWhile_append_all (fun c hc => hd2 c (List.mem_reverse.mp hc)),
      List.takeWhile_cons, if_neg (by rw [hxcd]; exact Bool.false_ne_true),
      List.append_nil]
  have hdw : (D2.reverse ++ xc :: (D1.reverse ++ '_' :: pre.reverse)).dropWhile isDigitU
      = xc :: (D1.reverse ++ '_' :: pre.reverse) := by
    rw [dropWhile_append_all (fun c hc => hd2 c (List.mem_reverse.mp hc)),
      List.dropWhile_cons, if_neg (by rw [hxcd]; exact Bool.false_ne_true)]
  have htw2 : (D1.reverse ++ '_' :: pre.reverse).takeWhile isDigitU = D1.reverse := by
    rw [takeWhile_append_all (fun c hc => hd1 c (List.mem_reverse.mp hc)),
      List.takeWhile_cons, if_neg (by decide), List.append_nil]
  have hdw2 : (D1.reverse ++ '_' :: pre.reverse).dropWhile isDigitU
      = '_' :: pre.reverse := by
    rw [dropWhile_append_all (fun c hc => hd1 c (List.mem_reverse.mp hc)),
      List.dropWhile_cons, if_neg (by decide)]
  simp only [size_fullmatch]
  rw [hrev, htw, hdw]
  rw [if_neg ?hne1]
  case hne1 =>
    intro hemp
    rw [List.isEmpty_iff] at hemp
    exact hD2 (by simpa using hemp)
  show (if (xc == 'x' || xc == 'X') = true then
      (if ((D1.reverse ++ '_' :: pre.reverse).takeWhile isDigitU).isEmpty = true then false
       else match (D1.reverse ++ '_' :: pre.reverse).dropWhile isDigitU with
         | u :: pre2 => u == '_' && !pre2.contains '\n'
         | [] => false)
      else false) = true
  rw [if_pos hxcx, htw2]
  rw [if_neg ?hne2]
  case hne2 =>
    intro hemp
    rw [List.isEmpty_iff] at hemp
    exact hD1 (by simpa using hemp)
  rw [hdw2]
  show (('_' == '_' : Bool) && !(pre.reverse.contains '\n')) = true
  have hcon : pre.reverse.contains '\n' = false := by
    simpa using hnl
  rw [hcon]
  decide

theorem size_fullmatch_elim {s : Str} (h : size_fullmatch s = true) :
    ∃ pre D1 D2 xc, s = pre ++ '_' :: D1 ++ xc :: D2 ∧ (xc = 'x' ∨ xc = 'X')
      ∧ D1 ≠ [] ∧ D2 ≠ [] ∧ (∀ c ∈ D1, isDigitU c = true) ∧ (∀ c ∈ D2, isDigitU c = true)
      ∧ ('\n' : Char) ∉ pre := by
  simp only [size_fullmatch] at h
  split at h
  · exact absurd h (by simp)
  · rename_i hne1
    rcases hr1 : s.reverse.dropWhile isDigitU with _ | ⟨x, r2⟩ <;> rw [hr1] at h
    · exact absurd h (by simp)
    · have h2 : (if (x == 'x' || x == 'X') = true then
          (if (r2.takeWhile isDigitU).isEmpty = true then false
           else match r2.dropWhile isDigitU with
             | u :: pre2 => u == '_' && !pre2.contains '\n'
             | [] => false)
          else false) = true := h
      by_cases hx : (x == 'x' || x == 'X') = true
      · rw [if_pos hx] at h2
        by_cases hne2 : (r2.takeWhile isDigitU).isEmpty = true
        · rw [if_pos hne2] at h2
          exact absurd h2 (by simp)
        · rw [if_neg hne2] at h2
          rcases hr3 : r2.dropWhile isDigitU with _ | ⟨u, pre2⟩ <;> rw [hr3] at h2
          · exact absurd h2 (by simp)
          · simp only [Bool.and_eq_true, beq_iff_eq, Bool.not_eq_true'] at h2
            obtain ⟨hu, hpre2⟩ := h2
            subst hu
            refine ⟨pre2.reverse, (r2.takeWhile isDigitU).reverse,
              (s.reverse.takeWhile isDigitU).reverse, x, ?_, by simpa using hx, ?_, ?_, ?_, ?_, ?_⟩
            · have hs1 : s.reverse
                  = s.reverse.takeWhile isDigitU ++ (x :: r2) := by
                rw [← hr1, List.takeWhile_append_dropWhile]
              have hs2 : r2 = r2.takeWhile isDigitU ++ ('_' :: pre2) := by
                rw [← hr3, List.takeWhile_append_dropWhile]
              have hse : s = (s.reverse.takeWhile isDigitU ++ (x :: (r2.takeWhile isDigitU
                  ++ ('_' :: pre2)))).reverse := by
                rw [← hs2, ← hs1, List.reverse_reverse]
              conv_lhs => rw [hse]
              simp
            · intro hn
              rw [List.isEmpty_iff] at hne2
              exact hne2 (by simpa using hn)
            · intro hn
              rw [List.isEmpty_iff] at hne1
              exact hne1 (by simpa using hn)
            · intro c hc
              exact List.mem_takeWhile_imp (List.mem_reverse.mp hc)
            · intro c hc
              exact List.mem_takeWhile_imp (List.mem_reverse.mp hc)
            · intro hn
              have hmem : ('\n' : Char) ∈ pre2 := List.mem_reverse.mp hn
              have h3 : pre2.elem '\n' = false := hpre2
              rw [List.elem_eq_true_of_mem hmem] at h3
              exact absurd h3 (by simp)
      · rw [if_neg hx] at h2
        exact absurd h2 (by simp)

theorem size_fullmatch_no_und {s : Str} (h : ('_' : Char) ∉ s) :
    size_fullmatch s = false := by
  cases hsf : size_fullmatch s
  · rfl
  · obtain ⟨pre, D1, D2, xc, hs, _⟩ := size_fullmatch_elim hsf
    rw [hs] at h
    simp at h

theorem dropWhile_append_left {p : Char → Bool} : ∀ {s : Str}, s.dropWhile p ≠ [] →
    ∀ z : Str, (s ++ z).dropWhile p = s.dropWhile p ++ z := by
  intro s
  induction s with
  | nil => exact fun hne _ => absurd rfl hne
  | cons c t ih =>
      intro hne z
      rw [List.cons_append, List.dropWhile_cons]
      by_cases hc : p c = true
      · rw [if_pos hc]
        rw [List.dropWhile_cons, if_pos hc] at hne ⊢
        exact ih hne z
      · rw [if_neg hc]
        rw [List.dropWhile_cons, if_neg hc]
        rw [List.cons_append]

theorem tryJoin_append_some {s : Str} {d : Char} {t : Str} (h : tryJoin s = some (d, t))
    (z : Str) : tryJoin (s ++ z) = some (d, t ++ z) := by
  unfold tryJoin at h ⊢
  rcases h1 : s.dropWhile isSpaceP with _ | ⟨x, r2⟩ <;> simp only [h1] at h
  · simp at h
  · have hdz : (s ++ z).dropWhile isSpaceP = x :: (r2 ++ z) := by
      rw [dropWhile_append_left (by rw [h1]; exact List.cons_ne_nil x r2) z, h1,
        List.cons_append]
    rw [hdz]
    split at h
    · rename_i hx
      rcases h2 : r2.dropWhile isSpaceP with _ | ⟨e, r4⟩ <;> simp only [h2] at h
      · simp at h
      · split at h
        · rename_i hde
          simp only [Option.some.injEq, Prod.mk.injEq] at h
          obtain ⟨rfl, rfl⟩ := h
          have hdz2 : (r2 ++ z).dropWhile isSpaceP = e :: (r4 ++ z) := by
            rw [dropWhile_append_left (by rw [h2]; exact List.cons_ne_nil e r4) z, h2,
              List.cons_append]
          show (if (x == 'x' || x == 'X') = true then
              (match (r2 ++ z).dropWhile isSpaceP with
               | d2 :: r5 => if isDigitA d2 then some (d2, r5) else none
               | [] => none)
              else none) = some (e, r4 ++ z)
          rw [if_pos hx, hdz2]
          show (if isDigitA e = true then some (e, r4 ++ z) else none) = some (e, r4 ++ z)
          rw [if_pos hde]
        · simp at h
    · simp at h

theorem tryJoin_not_x {c : Char} (t : Str) (hc : (c == 'x' || c == 'X') = false)
    (hcs : isSpaceP c = false) : tryJoin (c :: t) = none := by
  unfold tryJoin
  rw [List.dropWhile_cons, if_neg (by rw [hcs]; exact Bool.false_ne_true)]
  split
  · rename_i x r2 heq
    injection heq with e1 e2
    subst e1
    rw [if_neg (by rw [hc]; exact Bool.false_ne_true)]
  · rename_i heq
    exact absurd heq (List.cons_ne_nil c t)

theorem tryJoin_none_append_und {r T : Str} (h : tryJoin r = none) :
    tryJoin (r ++ '_' :: T) = none := by
  rcases h1 : r.dropWhile isSpaceP with _ | ⟨x, r2⟩
  · have hd : (r ++ '_' :: T).dropWhile isSpaceP = '_' :: T := by
      rw [dropWhile_append_all (List.dropWhile_eq_nil_iff.mp h1), List.dropWhile_cons,
        if_neg (by decide)]
    have : tryJoin (r ++ '_' :: T) = tryJoin ('_' :: T) := by
      unfold tryJoin
      rw [hd, List.dropWhile_cons, if_neg (by decide)]
    rw [this]
    exact tryJoin_not_x T (by decide) (by decide)
  · unfold tryJoin at h
    rw [h1] at h
    have h2 : (if (x == 'x' || x == 'X') = true then
        (match r2.dropWhile isSpaceP with
         | d :: r4 => if isDigitA d then some (d, r4) else none
         | [] => none)
        else none) = (none : Option (Char × Str)) := h
    have hdz : (r ++ '_' :: T).dropWhile isSpaceP = x :: (r2 ++ '_' :: T) := by
      rw [dropWhile_append_left (by rw [h1]; exact List.cons_ne_nil x r2) ('_' :: T), h1,
        List.cons_append]
    by_cases hx : (x == 'x' || x == 'X') = true
    · rw [if_pos hx] at h2
      unfold tryJoin
      rw [hdz]
      show (if (x == 'x' || x == 'X') = true then
          (match (r2 ++ '_' :: T).dropWhile isSpaceP with
           | d :: r4 => if isDigitA d then some (d, r4) else none
           | [] => none)
          else none) = none
      rw [if_pos hx]
      rcases h3 : r2.dropWhile isSpaceP with _ | ⟨e, r4⟩
      · have hd2 : (r2 ++ '_' :: T).dropWhile isSpaceP = '_' :: T := by
          rw [dropWhile_append_all (List.dropWhile_eq_nil_iff.mp h3), List.dropWhile_cons,
            if_neg (by decide)]
        rw [hd2]
        show (if isDigitA '_' = true then some ('_', T) else none) = (none : Option (Char × Str))
        rw [if_neg (by decide)]
      · rw [h3] at h2
        have h4 : (if isDigitA e = true then some (e, r4) else none)
            = (none : Option (Char × Str)) := h2
        have he : isDigitA e = false := by
          cases hh : isDigitA e
          · rfl
          · rw [if_pos hh] at h4
            exact absurd h4 (by simp)
        have hd2 : (r2 ++ '_' :: T).dropWhile isSpaceP = e :: (r4 ++ '_' :: T) := by
          rw [dropWhile_append_left (by rw [h3]; exact List.cons_ne_nil e r4) ('_' :: T), h3,
            List.cons_append]
        rw [hd2]
        show (if isDigitA e = true then some (e, r4 ++ '_' :: T) else none)
          = (none : Option (Char × Str))
        rw [if_neg (by rw [he]; exact Bool.false_ne_true)]
    · unfold tryJoin
      rw [hdz]
      show (if (x == 'x' || x == 'X') = true then
          (match (r2 ++ '_' :: T).dropWhile isSpaceP with
           | d :: r4 => if isDigitA d then some (d, r4) else none
           | [] => none)
          else none) = none
      rw [if_neg hx]

theorem joinX_append_und : ∀ (n : Nat) (C T : Str), C.length ≤ n →
    joinX (C ++ '_' :: T) = joinX C ++ '_' :: joinX T := by
  intro n
  induction n with
  | zero =>
      intro C T h
      have hnil : C = [] := List.length_eq_zero.mp (Nat.le_zero.mp h)
      subst hnil
      show joinX ('_' :: T) = joinX [] ++ '_' :: joinX T
      rw [joinX_cons, show isDigitA '_' = false from by decide]
      simp only [Bool.false_eq_true, if_false]
      rfl
  | succ m ih =>
      intro C T hlen
      cases C with
      | nil =>
          show joinX ('_' :: T) = joinX [] ++ '_' :: joinX T
          rw [joinX_cons, show isDigitA '_' = false from by decide]
          simp only [Bool.false_eq_true, if_false]
          rfl
      | cons c rest =>
          simp only [List.length_cons, Nat.succ_le_succ_iff] at hlen
          rw [List.cons_append, joinX_cons, joinX_cons]
          by_cases hd : isDigitA c = true
          · rw [if_pos hd, if_pos hd]
            cases htj : tryJoin rest with
            | some p =>
                obtain ⟨d2, r2⟩ := p
                have hlen2 := tryJoin_length htj
                rw [tryJoin_append_some htj ('_' :: T)]
                show c :: 'x' :: d2 :: joinX (r2 ++ '_' :: T)
                  = (c :: 'x' :: d2 :: joinX r2) ++ '_' :: joinX T
                rw [ih r2 T (by omega)]
                simp
            | none =>
                rw [tryJoin_none_append_und htj]
                show c :: joinX (rest ++ '_' :: T) = (c :: joinX rest) ++ '_' :: joinX T
                rw [ih rest T hlen]
                simp
          · rw [if_neg hd, if_neg hd]
            show c :: joinX (rest ++ '_' :: T) = (c :: joinX rest) ++ '_' :: joinX T
            rw [ih rest T hlen]
            simp

theorem joinX_digits_x_digits : ∀ (D1 : Str) {D2 : Str} {xc : Char},
    (xc = 'x' ∨ xc = 'X') → D1 ≠ [] → D2 ≠ [] →
    (∀ c ∈ D1, isDigitA c = true) → (∀ c ∈ D2, isDigitA c = true) →
    joinX (D1 ++ xc :: D2) = D1 ++ 'x' :: D2 := by
  intro D1
  induction D1 with
  | nil => exact fun _ h _ _ _ => absurd rfl h
  | cons d rest ih =>
      intro D2 xc hxc _ hD2 hd1 hd2
      rw [List.cons_append, joinX_cons, if_pos (hd1 d (by simp))]
      cases rest with
      | nil =>
          cases D2 with
          | nil => exact absurd rfl hD2
          | cons e t =>
              have htj : tryJoin (([] : Str) ++ xc :: e :: t) = some (e, t) := by
                show tryJoin (xc :: e :: t) = some (e, t)
                unfold tryJoin
                have hxs : isSpaceP xc = false := by
                  rcases hxc with rfl | rfl <;> decide
                have hxx : (xc == 'x' || xc == 'X') = true := by
                  rcases hxc with rfl | rfl <;> decide
                rw [List.dropWhile_cons, if_neg (by rw [hxs]; exact Bool.false_ne_true)]
                show (if (xc == 'x' || xc == 'X') = true then
                    (match (e :: t).dropWhile isSpaceP with
                     | d2 :: r4 => if isDigitA d2 then some (d2, r4) else none
                     | [] => none)
                    else none) = some (e, t)
                rw [if_pos hxx, List.dropWhile_cons,
                  if_neg (by rw [isDigitA_not_space (hd2 e (by simp))]
                             exact Bool.false_ne_true)]
                show (if isDigitA e = true then some (e, t) else none) = some (e, t)
                rw [if_pos (hd2 e (by simp))]
              rw [htj]
              show d :: 'x' :: e :: joinX t = [d] ++ 'x' :: e :: t
              rw [joinX_alldigit_id fun c hc => hd2 c (List.mem_cons_of_mem e hc)]
              rfl
      | cons d2 rest2 =>
          have htj : tryJoin ((d2 :: rest2) ++ xc :: D2) = none := by
            rw [List.cons_append]
            exact tryJoin_none_of_digit_head (hd1 d2 (by simp))
          rw [htj]
          show d :: joinX ((d2 :: rest2) ++ xc :: D2) = (d :: d2 :: rest2) ++ 'x' :: D2
          rw [ih hxc (List.cons_ne_nil d2 rest2) hD2
            (fun c hc => hd1 c (List.mem_cons_of_mem d hc)) hd2]
          rfl

theorem x_not_space {x : Char} (hx : (x == 'x' || x == 'X') = true) : isSpaceP x = false := by
  rcases (by simpa using hx : x = 'x' ∨ x = 'X') with rfl | rfl <;> decide

theorem split2_cons_ex (p q : Char → Bool) (c : Char) (t : Str) :
    ∃ z, split2 p q (c :: t) = c :: z := by
  have h2 := split2_head? p q (c :: t)
  cases hsz : split2 p q (c :: t) with
  | nil =>
      rw [hsz] at h2
      simp at h2
  | cons y z =>
      rw [hsz] at h2
      simp only [List.head?_cons, Option.some.injEq] at h2
      exact ⟨z, by rw [h2]⟩

theorem tryJoin_none_split2 {p q : Char → Bool}
    (hp : ∀ c, p c = true → isSpaceP c = false)
    (hq : ∀ c, q c = true → isSpaceP c = false)
    (hcase : ∀ c e, (c == 'x' || c == 'X') = true → isDigitA e = false →
      (p c && q e) = false)
    {s : Str} (h : tryJoin s = none) : tryJoin (split2 p q s) = none := by
  rcases h1 : s.dropWhile isSpaceP with _ | ⟨x, r2⟩
  · unfold tryJoin
    rw [split2_dropWhile hp, h1]
    rfl
  · unfold tryJoin at h
    rw [h1] at h
    have h2 : (if (x == 'x' || x == 'X') = true then
        (match r2.dropWhile isSpaceP with
         | d :: r4 => if isDigitA d then some (d, r4) else none
         | [] => none)
        else none) = (none : Option (Char × Str)) := h
    by_cases hx : (x == 'x' || x == 'X') = true
    · rw [if_pos hx] at h2
      have hstep : split2 p q (x :: r2) = x :: split2 p q r2 := by
        apply split2_cons_step
        intro b hb
        by_cases hbs : isSpaceP b = true
        · cases hqb : q b
          · rw [Bool.and_false]
          · rw [hq b hqb] at hbs
            exact absurd hbs Bool.false_ne_true
        · have hbd : isDigitA b = false := by
            obtain ⟨t2, ht2⟩ : ∃ t2, r2 = b :: t2 := by
              cases r2 with
              | nil => simp at hb
              | cons bb tt =>
                  simp only [List.head?_cons, Option.some.injEq] at hb
                  exact ⟨tt, by rw [hb]⟩
            rw [ht2, List.dropWhile_cons, if_neg hbs] at h2
            have h3 : (if isDigitA b = true then some (b, t2) else none)
                = (none : Option (Char × Str)) := h2
            cases hh : isDigitA b
            · rfl
            · rw [if_pos hh] at h3
              exact absurd h3 (by simp)
          exact hcase x b hx hbd
      unfold tryJoin
      rw [split2_dropWhile hp, h1, hstep]
      show (if (x == 'x' || x == 'X') = true then
          (match (split2 p q r2).dropWhile isSpaceP with
           | d :: r4 => if isDigitA d then some (d, r4) else none
           | [] => none)
          else none) = none
      rw [if_pos hx, split2_dropWhile hp]
      rcases h4 : r2.dropWhile isSpaceP with _ | ⟨e, r4⟩
      · rfl
      · rw [h4] at h2
        have h5 : (if isDigitA e = true then some (e, r4) else none)
            = (none : Option (Char × Str)) := h2
        have he : isDigitA e = false := by
          cases hh : isDigitA e
          · rfl
          · rw [if_pos hh] at h5
            exact absurd h5 (by simp)
        obtain ⟨Z, hZ⟩ := split2_cons_ex p q e r4
        rw [hZ]
        show (if isDigitA e = true then some (e, Z) else none)
          = (none : Option (Char × Str))
        rw [he]
        simp only [Bool.false_eq_true, if_false]
    · obtain ⟨Z, hZ⟩ := split2_cons_ex p q x r2
      unfold tryJoin
      rw [split2_dropWhile hp, h1, hZ]
      show (if (x == 'x' || x == 'X') = true then
          (match Z.dropWhile isSpaceP with
           | d :: r4 => if isDigitA d then some (d, r4) else none
           | [] => none)
          else none) = none
      rw [if_neg hx]

theorem tryJoin_sp_x_sp_d {d : Char} (Z : Str) (hd : isDigitA d = true) :
    tryJoin (' ' :: 'x' :: ' ' :: d :: Z) = some (d, Z) := by
  unfold tryJoin
  rw [List.dropWhile_cons, if_pos (by decide), List.dropWhile_cons, if_neg (by decide)]
  show (if (('x' : Char) == 'x' || ('x' : Char) == 'X') = true then
      (match (' ' :: d :: Z).dropWhile isSpaceP with
       | d2 :: r4 => if isDigitA d2 then some (d2, r4) else none
       | [] => none)
      else none) = some (d, Z)
  rw [if_pos (by decide), List.dropWhile_cons, if_pos (by decide), List.dropWhile_cons,
    if_neg (by rw [isDigitA_not_space hd]; exact Bool.false_ne_true)]
  show (if isDigitA d = true then some (d, Z) else none) = some (d, Z)
  rw [if_pos hd]

theorem general_key : ∀ (n : Nat) (w : Str), w.length ≤ n →
    List.Chain' (fun a b => (isAlphaA a && isDigitA b) = false
      ∧ (isDigitA a && isAlphaA b) = false) w →
    joinX (split2 isDigitA isAlphaA (split2 isAlphaA isDigitA (joinX w))) = joinX w := by
  intro n
  induction n with
  | zero =>
      intro w h _
      have hnil : w = [] := List.length_eq_zero.mp (Nat.le_zero.mp h)
      subst hnil
      rfl
  | succ m ih =>
      intro w hlen hch
      cases w with
      | nil => rfl
      | cons c rest =>
          simp only [List.length_cons, Nat.succ_le_succ_iff] at hlen
          rcases List.chain'_cons'.mp hch with ⟨hhd, hrest⟩
          rw [joinX_cons]
          by_cases hd : isDigitA c = true
          · rw [if_pos hd]
            cases htj : tryJoin rest with
            | some p =>
                obtain ⟨d2, r2⟩ := p
                have hd2 : isDigitA d2 = true := tryJoin_digit htj
                have hlen2 := tryJoin_length htj
                have hsuf : d2 :: r2 <:+ rest := tryJoin_suffix htj
                rcases List.chain'_cons'.mp (hrest.suffix hsuf) with ⟨hd2hd, hchr2⟩
                rw [split2_cons_step (p := isAlphaA) (q := isDigitA) (fun b hb => by
                  simp only [List.head?_cons, Option.some.injEq] at hb
                  rw [← hb, show isDigitA 'x' = false from by decide, Bool.and_false])]
                rw [split2_cons_match (joinX r2) (by decide) hd2]
                rw [split2_cons_match (' ' :: d2 :: split2 isAlphaA isDigitA (joinX r2))
                  hd (by decide)]
                rw [split2_cons_step (p := isDigitA) (q := isAlphaA) (fun b hb => by
                  simp only [List.head?_cons, Option.some.injEq] at hb
                  rw [← hb, show isDigitA ' ' = false from by decide, Bool.false_and])]
                rw [split2_cons_step (p := isDigitA) (q := isAlphaA) (fun b hb => by
                  rw [split2_head?, joinX_head?] at hb
                  exact (hd2hd b (by rw [Option.mem_def]; exact hb)).2)]
                rw [joinX_cons, if_pos hd,
                  tryJoin_sp_x_sp_d (split2 isDigitA isAlphaA
                    (split2 isAlphaA isDigitA (joinX r2))) hd2]
                show c :: 'x' :: d2 :: joinX (split2 isDigitA isAlphaA
                    (split2 isAlphaA isDigitA (joinX r2)))
                  = c :: 'x' :: d2 :: joinX r2
                rw [ih r2 (by omega) hchr2]
            | none =>
                rw [split2_cons_step (p := isAlphaA) (q := isDigitA) (fun b hb => by
                  rw [joinX_head?] at hb
                  exact (hhd b (by rw [Option.mem_def]; exact hb)).1)]
                rw [split2_cons_step (p := isDigitA) (q := isAlphaA) (fun b hb => by
                  rw [split2_head?, joinX_head?] at hb
                  exact (hhd b (by rw [Option.mem_def]; exact hb)).2)]
                rw [joinX_cons, if_pos hd,
                  tryJoin_none_split2 (fun e he => isDigitA_not_space he)
                    (fun e he => isAlphaA_not_space he)
                    (fun e b hex hbd => by rw [x_not_digit hex, Bool.false_and])
                    (tryJoin_none_split2 (fun e he => isAlphaA_not_space he)
                      (fun e he => isDigitA_not_space he)
                      (fun e b hex hbd => by rw [hbd, Bool.and_false])
                      (tryJoin_none_joinX htj))]
                show c :: joinX (split2 isDigitA isAlphaA
                    (split2 isAlphaA isDigitA (joinX rest)))
                  = c :: joinX rest
                rw [ih rest hlen hrest]
          · rw [if_neg hd]
            rw [split2_cons_step (p := isAlphaA) (q := isDigitA) (fun b hb => by
              rw [joinX_head?] at hb
              exact (hhd b (by rw [Option.mem_def]; exact hb)).1)]
            rw [split2_cons_step (p := isDigitA) (q := isAlphaA) (fun b hb => by
              rw [split2_head?, joinX_head?] at hb
              exact (hhd b (by rw [Option.mem_def]; exact hb)).2)]
            rw [joinX_cons, if_neg hd]
            show c :: joinX (split2 isDigitA isAlphaA
                (split2 isAlphaA isDigitA (joinX rest)))
              = c :: joinX rest
            rw [ih rest hlen hrest]

theorem isDigitA_not_upper {c : Char} (h : isDigitA c = true) : isUpperA c = false := by
  simp [isDigitA] at h
  simp [isUpperA]
  omega

theorem isDigitA_not_lower {c : Char} (h : isDigitA c = true) : isLowerA c = false := by
  simp [isDigitA] at h
  simp [isLowerA]
  omega

theorem chain'_and {R S : Char → Char → Prop} : ∀ {l : Str},
    List.Chain' R l → List.Chain' S l → List.Chain' (fun a b => R a b ∧ S a b) l := by
  intro l
  induction l with
  | nil => exact fun _ _ => List.chain'_nil
  | cons a t ih =>
      intro hr hs
      rcases List.chain'_cons'.mp hr with ⟨hr1, hr2⟩
      rcases List.chain'_cons'.mp hs with ⟨hs1, hs2⟩
      exact List.chain'_cons'.mpr ⟨fun b hb => ⟨hr1 b hb, hs1 b hb⟩, ih hr2 hs2⟩

theorem keepPrice_mem {c : Char} {t : Str} (h : c ∈ keepPrice t) :
    (isDigitA c || c == '.' || c == '-') = true := by
  unfold keepPrice at h
  exact List.of_mem_filter (p := fun x => isDigitA x || x == '.' || x == '-') h

theorem limparStr_idem_preco {nome : Option Str} (hn : nomeIsPreco nome = true) (t : Str) :
    limparStr ("produtos".toList) nome (pyStrip (keepPrice t))
      = pyStrip (keepPrice t) := by
  have hmem : ∀ c ∈ pyStrip (keepPrice t), (isDigitA c || c == '.' || c == '-') = true :=
    fun c hc => keepPrice_mem (mem_pyStrip hc)
  have hascii : ∀ c ∈ pyStrip (keepPrice t), c.toNat < 128 := by
    intro c hc
    have h2 := hmem c hc
    simp only [Bool.or_eq_true, beq_iff_eq] at h2
    rcases h2 with (h1 | h1) | h1
    · have h3 := isDigitA_toNat h1
      omega
    · rw [h1]
      decide
    · rw [h1]
      decide
  have hcomma : (',' : Char) ∉ pyStrip (keepPrice t) := by
    intro hc
    exact absurd (hmem ',' hc) (by decide)
  unfold limparStr
  rw [pre_id hascii hcomma]
  simp only [limparRamo, if_pos rfl, hn, if_true]
  show pyStrip (List.filter _ (pyStrip (keepPrice t))) = pyStrip (keepPrice t)
  rw [List.filter_eq_self.mpr hmem, pyStrip_idem]

theorem isAlphaA_lt128 {c : Char} (h : isAlphaA c = true) : c.toNat < 128 := by
  simp [isAlphaA] at h
  omega

theorem keepCliente_mem {c : Char} {t : Str} (h : c ∈ keepCliente t) :
    (isAlphaA c || isDigitA c || c == '_' || c == ' ') = true := by
  unfold keepCliente at h
  exact List.of_mem_filter
    (p := fun x => isAlphaA x || isDigitA x || x == '_' || x == ' ') h

theorem cliente_second_pass {ctx : Str} (hctx : ¬(ctx = "produtos".toList))
    (nome : Option Str) {u2 : Str}
    (hmem : ∀ c ∈ u2, (isAlphaA c || isDigitA c || c == '_' || c == ' ') = true)
    (hch : List.Chain' (fun a b => (isSpaceP a && isSpaceP b) = false) u2) :
    limparStr ctx nome (pyStrip (subUnd (split2 isDigitA isAlphaA
      (split2 isAlphaA isDigitA u2))))
    = pyStrip (subUnd (split2 isDigitA isAlphaA (split2 isAlphaA isDigitA u2))) := by
  set u4 := split2 isDigitA isAlphaA (split2 isAlphaA isDigitA u2) with hu4
  set z := subUnd u4 with hz
  set y := pyStrip z with hy2
  have hmem4 : ∀ c ∈ u4, (isAlphaA c || isDigitA c || c == '_' || c == ' ') = true := by
    intro c hc
    rw [hu4] at hc
    rcases mem_split2 hc with hc2 | rfl
    · rcases mem_split2 hc2 with hc3 | rfl
      · exact hmem c hc3
      · decide
    · decide
  have hmemz : ∀ c ∈ z, (isAlphaA c || isDigitA c || c == '_' || c == ' ') = true := by
    intro c hc
    rw [hz] at hc
    rcases mem_subUnd hc with hc2 | rfl
    · exact hmem4 c hc2
    · decide
  have hmemy : ∀ c ∈ y, (isAlphaA c || isDigitA c || c == '_' || c == ' ') = true := by
    intro c hc
    rw [hy2] at hc
    exact hmemz c (mem_pyStrip hc)
  have hspy : ∀ c ∈ y, isSpaceP c = true → c = ' ' := by
    intro c hc hsp2
    have h2 := hmemy c hc
    simp only [Bool.or_eq_true, beq_iff_eq] at h2
    rcases h2 with ((h1 | h1) | h1) | h1
    · rw [isAlphaA_not_space h1] at hsp2
      exact absurd hsp2 Bool.false_ne_true
    · rw [isDigitA_not_space h1] at hsp2
      exact absurd hsp2 Bool.false_ne_true
    · rw [h1] at hsp2
      exact absurd hsp2 (by decide)
    · exact h1
  have hascii : ∀ c ∈ y, c.toNat < 128 := by
    intro c hc
    have h2 := hmemy c hc
    simp only [Bool.or_eq_true, beq_iff_eq] at h2
    rcases h2 with ((h1 | h1) | h1) | h1
    · exact isAlphaA_lt128 h1
    · have h3 := isDigitA_toNat h1
      omega
    · rw [h1]
      decide
    · rw [h1]
      decide
  have hcomma : (',' : Char) ∉ y := by
    intro hc
    exact absurd (hmemy ',' hc) (by decide)
  have hchsp4 : List.Chain' (fun a b => (isSpaceP a && isSpaceP b) = false) u4 := by
    rw [hu4]
    refine chain'_split2 ?_ (chain'_split2 ?_ hch)
    · intro a b ha hb
      exact ⟨by rw [isDigitA_not_space ha, Bool.false_and],
        by rw [isAlphaA_not_space hb, Bool.and_false]⟩
    · intro a b ha hb
      exact ⟨by rw [isAlphaA_not_space ha, Bool.false_and],
        by rw [isDigitA_not_space hb, Bool.and_false]⟩
  have hchAD4 : List.Chain' (fun a b => (isAlphaA a && isDigitA b) = false) u4 := by
    rw [hu4]
    refine chain'_split2 ?_ (split2_no_pq (fun c h => isDigitA_not_alpha h)
      (by decide) (by decide) u2)
    intro a b ha hb
    exact ⟨by rw [show isDigitA ' ' = false from by decide, Bool.and_false],
      by rw [show isAlphaA ' ' = false from by decide, Bool.false_and]⟩
  have hchDA4 : List.Chain' (fun a b => (isDigitA a && isAlphaA b) = false) u4 := by
    rw [hu4]
    exact split2_no_pq (fun c h => isAlphaA_not_digit h) (by decide) (by decide) _
  have hchspz : List.Chain' (fun a b => (isSpaceP a && isSpaceP b) = false) z := by
    rw [hz]
    exact chain'_subUnd (fun c => by rw [show isSpaceP '_' = false from by decide,
        Bool.and_false])
      (fun c => by rw [show isSpaceP '_' = false from by decide, Bool.false_and]) hchsp4
  have hchADz : List.Chain' (fun a b => (isAlphaA a && isDigitA b) = false) z := by
    rw [hz]
    exact chain'_subUnd (fun c => by rw [show isDigitA '_' = false from by decide,
        Bool.and_false])
      (fun c => by rw [show isAlphaA '_' = false from by decide, Bool.false_and]) hchAD4
  have hchDAz : List.Chain' (fun a b => (isDigitA a && isAlphaA b) = false) z := by
    rw [hz]
    exact chain'_subUnd (fun c => by rw [show isAlphaA '_' = false from by decide,
        Bool.and_false])
      (fun c => by rw [show isDigitA '_' = false from by decide, Bool.false_and]) hchDA4
  have hchRUz : List.Chain' (fun a b => ¬(a = '_' ∧ isSpaceP b = true)
      ∧ ¬(isSpaceP a = true ∧ b = '_')) z := by
    rw [hz]
    exact chain'_subUnd_spund u4.length u4 (Nat.le_refl _)
  have hinf : y <:+: z := by
    rw [hy2]
    exact pyStrip_infix_of z
  have hchspy := chain'_infix_of hchspz hinf
  have hchADy := chain'_infix_of hchADz hinf
  have hchDAy := chain'_infix_of hchDAz hinf
  have hchRUy := chain'_infix_of hchRUz hinf
  have hsub : subUnd y = y := subUnd_id hchspy hchRUy
  have hkeep : keepCliente y = y := by
    unfold keepCliente
    exact List.filter_eq_self.mpr hmemy
  have hcoll : collapseWs y = y := collapseWs_id y.length y (Nat.le_refl _) hspy hchspy
  have hstrip : pyStrip y = y := by
    rw [hy2]
    exact pyStrip_idem z
  have hAD : split2 isAlphaA isDigitA y = y := split2_id hchADy
  have hDA : split2 isDigitA isAlphaA y = y := split2_id hchDAy
  unfold limparStr
  rw [pre_id hascii hcomma]
  simp only [limparRamo, if_neg hctx]
  rw [hsub, hkeep, hcoll, hstrip, hAD, hDA, hsub, hstrip]

theorem limparStr_idem_cliente {ctx : Str} (hctx : ¬(ctx = "produtos".toList))
    (nome : Option Str) (t : Str) :
    limparStr ctx nome (pyStrip (subUnd (split2 isDigitA isAlphaA (split2 isAlphaA isDigitA
      (pyStrip (collapseWs (keepCliente (subUnd t))))))))
    = pyStrip (subUnd (split2 isDigitA isAlphaA (split2 isAlphaA isDigitA
      (pyStrip (collapseWs (keepCliente (subUnd t))))))) := by
  apply cliente_second_pass hctx
  · intro c hc
    rcases mem_collapseWs (mem_pyStrip hc) with hc2 | rfl
    · exact keepCliente_mem hc2
    · decide
  · exact chain'_infix_of (chain'_collapseWs (keepCliente (subUnd t)))
      (pyStrip_infix_of (collapseWs (keepCliente (subUnd t))))

theorem keepSize_mem {c : Char} {t : Str} (h : c ∈ keepSize t) :
    (isAlphaA c || isDigitA c || c == '_' || c == 'x' || c == 'X' || c == ' ') = true := by
  unfold keepSize at h
  exact List.of_mem_filter
    (p := fun x => isAlphaA x || isDigitA x || x == '_' || x == 'x' || x == 'X' || x == ' ') h

theorem limparStr_idem_size {nome : Option Str} (hn : nomeIsPreco nome = false)
    {t : Str} (hsz : size_fullmatch t = true) (hta : ∀ c ∈ t, c.toNat < 128) :
    limparStr ("produtos".toList) nome (joinX (pyStrip (collapseWs (keepSize t))))
      = joinX (pyStrip (collapseWs (keepSize t))) := by
  obtain ⟨pre, D1, D2, xc, ht, hxc, hD1, hD2, hd1, hd2, hnl⟩ := size_fullmatch_elim hsz
  have hd1A : ∀ c ∈ D1, isDigitA c = true := fun c hc =>
    isDigitU_ascii (hd1 c hc) (hta c (by rw [ht]; simp [hc]))
  have hd2A : ∀ c ∈ D2, isDigitA c = true := fun c hc =>
    isDigitU_ascii (hd2 c hc) (hta c (by rw [ht]; simp [hc]))
  have ht' : t = pre ++ ('_' :: (D1 ++ xc :: D2)) := by
    rw [ht]
    simp
  have hsufpred : ∀ c ∈ ('_' :: (D1 ++ xc :: D2) : Str),
      (isAlphaA c || isDigitA c || c == '_' || c == 'x' || c == 'X' || c == ' ') = true := by
    intro c hc
    simp only [List.mem_cons, List.mem_append] at hc
    rcases hc with rfl | (hc | (rfl | hc))
    · decide
    · rw [hd1A c hc]
      simp
    · rcases hxc with rfl | rfl <;> decide
    · rw [hd2A c hc]
      simp
  have hsufns : ∀ c ∈ ('_' :: (D1 ++ xc :: D2) : Str), isSpaceP c = false := by
    intro c hc
    simp only [List.mem_cons, List.mem_append] at hc
    rcases hc with rfl | (hc | (rfl | hc))
    · decide
    · exact isDigitA_not_space (hd1A c hc)
    · rcases hxc with rfl | rfl <;> decide
    · exact isDigitA_not_space (hd2A c hc)
  have h1 : keepSize t = keepSize pre ++ ('_' :: (D1 ++ xc :: D2)) := by
    rw [ht']
    unfold keepSize
    rw [List.filter_append]
    rw [List.filter_eq_self.mpr hsufpred]
  have h2 : collapseWs (keepSize t)
      = collapseWs (keepSize pre) ++ ('_' :: (D1 ++ xc :: D2)) := by
    rw [h1]
    exact collapseWs_append_nospace (keepSize pre).length _ _ (Nat.le_refl _) hsufns
  have h3 : pyStrip (collapseWs (keepSize t))
      = pyStripLeft (collapseWs (keepSize pre)) ++ ('_' :: (D1 ++ xc :: D2)) := by
    rw [h2]
    exact pyStrip_append_nospace (List.cons_ne_nil _ _) hsufns
  have h4 : joinX (pyStrip (collapseWs (keepSize t)))
      = joinX (pyStripLeft (collapseWs (keepSize pre))) ++ ('_' :: (D1 ++ 'x' :: D2)) := by
    rw [h3, joinX_append_und (pyStripLeft (collapseWs (keepSize pre))).length _ _
      (Nat.le_refl _), joinX_digits_x_digits D1 hxc hD1 hD2 hd1A hd2A]
  have hnl2 : ('\n' : Char) ∉ joinX (pyStripLeft (collapseWs (keepSize pre))) := by
    intro hc
    rcases mem_joinX hc with hc2 | hc2
    · rw [pyStripLeft_eq_dropWhile] at hc2
      rcases mem_collapseWs ((List.dropWhile_sublist _).subset hc2) with hc3 | hc3
      · exact absurd (keepSize_mem hc3) (by decide)
      · exact absurd hc3 (by decide)
    · exact absurd hc2 (by decide)
  have hsz2 : size_fullmatch (joinX (pyStrip (collapseWs (keepSize t)))) = true := by
    rw [h4, show joinX (pyStripLeft (collapseWs (keepSize pre))) ++ ('_' :: (D1 ++ 'x' :: D2))
        = joinX (pyStripLeft (collapseWs (keepSize pre))) ++ '_' :: D1 ++ 'x' :: D2 from
      by simp]
    exact size_fullmatch_intro _ D1 D2 'x' (Or.inl rfl) hD1 hD2 hd1 hd2 hnl2
  have hmemy : ∀ c ∈ joinX (pyStrip (collapseWs (keepSize t))),
      (isAlphaA c || isDigitA c || c == '_' || c == 'x' || c == 'X' || c == ' ') = true := by
    intro c hc
    rcases mem_joinX hc with hc2 | rfl
    · rcases mem_collapseWs (mem_pyStrip hc2) with hc3 | rfl
      · exact keepSize_mem hc3
      · decide
    · decide
  have hspy : ∀ c ∈ joinX (pyStrip (collapseWs (keepSize t))),
      isSpaceP c = true → c = ' ' := by
    intro c hc hsp2
    have h5 := hmemy c hc
    simp only [Bool.or_eq_true, beq_iff_eq] at h5
    rcases h5 with ((((h6 | h6) | h6) | h6) | h6) | h6
    · rw [isAlphaA_not_space h6] at hsp2
      exact absurd hsp2 Bool.false_ne_true
    · rw [isDigitA_not_space h6] at hsp2
      exact absurd hsp2 Bool.false_ne_true
    · rw [h6] at hsp2
      exact absurd hsp2 (by decide)
    · rw [h6] at hsp2
      exact absurd hsp2 (by decide)
    · rw [h6] at hsp2
      exact absurd hsp2 (by decide)
    · exact h6
  have hascii : ∀ c ∈ joinX (pyStrip (collapseWs (keepSize t))), c.toNat < 128 := by
    intro c hc
    have h5 := hmemy c hc
    simp only [Bool.or_eq_true, beq_iff_eq] at h5
    rcases h5 with ((((h6 | h6) | h6) | h6) | h6) | h6
    · exact isAlphaA_lt128 h6
    · have h7 := isDigitA_toNat h6
      omega
    · rw [h6]
      decide
    · rw [h6]
      decide
    · rw [h6]
      decide
    · rw [h6]
      decide
  have hcomma : (',' : Char) ∉ joinX (pyStrip (collapseWs (keepSize t))) := by
    intro hc
    exact absurd (hmemy ',' hc) (by decide)
  have hchspy : List.Chain' (fun a b => (isSpaceP a && isSpaceP b) = false)
      (joinX (pyStrip (collapseWs (keepSize t)))) := by
    refine chain'_joinX ?_ ?_ (chain'_infix_of (chain'_collapseWs (keepSize t))
      (pyStrip_infix_of (collapseWs (keepSize t))))
    · intro d hd
      rw [show isSpaceP 'x' = false from by decide, Bool.and_false]
    · intro d hd
      rw [show isSpaceP 'x' = false from by decide, Bool.false_and]
  have hkeep : keepSize (joinX (pyStrip (collapseWs (keepSize t))))
      = joinX (pyStrip (collapseWs (keepSize t))) := by
    unfold keepSize
    exact List.filter_eq_self.mpr hmemy
  have hcoll : collapseWs (joinX (pyStrip (collapseWs (keepSize t))))
      = joinX (pyStrip (collapseWs (keepSize t))) :=
    collapseWs_id _ _ (Nat.le_refl _) hspy hchspy
  have hstrip : pyStrip (joinX (pyStrip (collapseWs (keepSize t))))
      = joinX (pyStrip (collapseWs (keepSize t))) := by
    apply pyStrip_id2
    · intro c hc
      rw [joinX_head?] at hc
      exact pyStrip_head hc
    · intro c hc
      rw [joinX_getLast?] at hc
      exact pyStrip_getLast hc
  unfold limparStr
  rw [pre_id hascii hcomma]
  simp only [limparRamo, if_pos rfl, hn, Bool.false_eq_true, if_false, hsz2, if_true]
  rw [hkeep, hcoll, hstrip, joinX_idem]

theorem keepGeral_mem {c : Char} {t : Str} (h : c ∈ keepGeral t) :
    (isAlphaA c || isDigitA c || c == ' ') = true := by
  unfold keepGeral at h
  exact List.of_mem_filter (p := fun x => isAlphaA x || isDigitA x || x == ' ') h

theorem geral_second_pass {nome : Option Str} (hn : nomeIsPreco nome = false)
    {u2 : Str}
    (hmem : ∀ c ∈ u2, (isAlphaA c || isDigitA c || c == ' ') = true)
    (hch : List.Chain' (fun a b => (isSpaceP a && isSpaceP b) = false) u2)
    (hhd : ∀ c, u2.head? = some c → isSpaceP c = false)
    (hlast : ∀ c, u2.getLast? = some c → isSpaceP c = false) :
    limparStr ("produtos".toList) nome (pyStrip (joinX (split2 isDigitA isAlphaA
      (split2 isAlphaA isDigitA (split2 isLowerA isUpperA u2)))))
    = pyStrip (joinX (split2 isDigitA isAlphaA
      (split2 isAlphaA isDigitA (split2 isLowerA isUpperA u2)))) := by
  set u5 := split2 isDigitA isAlphaA (split2 isAlphaA isDigitA (split2 isLowerA isUpperA u2))
    with hu5
  have hu5hd : u5.head? = u2.head? := by
    rw [hu5, split2_head?, split2_head?, split2_head?]
  have hu5last : u5.getLast? = u2.getLast? := by
    rw [hu5, split2_getLast?, split2_getLast?, split2_getLast?]
  have hstrip0 : pyStrip (joinX u5) = joinX u5 := by
    apply pyStrip_id2
    · intro c hc
      rw [joinX_head?, hu5hd] at hc
      exact hhd c hc
    · intro c hc
      rw [joinX_getLast?, hu5last] at hc
      exact hlast c hc
  rw [hstrip0]
  have hmem5 : ∀ c ∈ u5, (isAlphaA c || isDigitA c || c == ' ') = true := by
    intro c hc
    rw [hu5] at hc
    rcases mem_split2 hc with hc2 | rfl
    · rcases mem_split2 hc2 with hc3 | rfl
      · rcases mem_split2 hc3 with hc4 | rfl
        · exact hmem c hc4
        · decide
      · decide
    · decide
  have hmemy : ∀ c ∈ joinX u5, (isAlphaA c || isDigitA c || c == ' ') = true := by
    intro c hc
    rcases mem_joinX hc with hc2 | rfl
    · exact hmem5 c hc2
    · decide
  have hspy : ∀ c ∈ joinX u5, isSpaceP c = true → c = ' ' := by
    intro c hc hsp2
    have h5 := hmemy c hc
    simp only [Bool.or_eq_true, beq_iff_eq] at h5
    rcases h5 with (h6 | h6) | h6
    · rw [isAlphaA_not_space h6] at hsp2
      exact absurd hsp2 Bool.false_ne_true
    · rw [isDigitA_not_space h6] at hsp2
      exact absurd hsp2 Bool.false_ne_true
    · exact h6
  have hascii : ∀ c ∈ joinX u5, c.toNat < 128 := by
    intro c hc
    have h5 := hmemy c hc
    simp only [Bool.or_eq_true, beq_iff_eq] at h5
    rcases h5 with (h6 | h6) | h6
    · exact isAlphaA_lt128 h6
    · have h7 := isDigitA_toNat h6
      omega
    · rw [h6]
      decide
  have hcomma : (',' : Char) ∉ joinX u5 := by
    intro hc
    exact absurd (hmemy ',' hc) (by decide)
  have hund : ('_' : Char) ∉ joinX u5 := by
    intro hc
    exact absurd (hmemy '_' hc) (by decide)
  have hchsp5 : List.Chain' (fun a b => (isSpaceP a && isSpaceP b) = false) u5 := by
    rw [hu5]
    refine chain'_split2 ?_ (chain'_split2 ?_ (chain'_split2 ?_ hch))
    · intro a b ha hb
      exact ⟨by rw [isDigitA_not_space ha, Bool.false_and],
        by rw [isAlphaA_not_space hb, Bool.and_false]⟩
    · intro a b ha hb
      exact ⟨by rw [isAlphaA_not_space ha, Bool.false_and],
        by rw [isDigitA_not_space hb, Bool.and_false]⟩
    · intro a b ha hb
      exact ⟨by rw [isLowerA_not_space ha, Bool.false_and],
        by rw [isUpperA_not_space hb, Bool.and_false]⟩
  have hchLU5 : List.Chain' (fun a b => (isLowerA a && isUpperA b) = false) u5 := by
    rw [hu5]
    refine chain'_split2 ?_ (chain'_split2 ?_ (split2_no_pq
      (fun c h => isUpperA_not_lower h) (by decide) (by decide) _))
    · intro a b ha hb
      exact ⟨by rw [show isUpperA ' ' = false from by decide, Bool.and_false],
        by rw [show isLowerA ' ' = false from by decide, Bool.false_and]⟩
    · intro a b ha hb
      exact ⟨by rw [show isUpperA ' ' = false from by decide, Bool.and_false],
        by rw [show isLowerA ' ' = false from by decide, Bool.false_and]⟩
  have hchAD5 : List.Chain' (fun a b => (isAlphaA a && isDigitA b) = false) u5 := by
    rw [hu5]
    refine chain'_split2 ?_ (split2_no_pq (fun c h => isDigitA_not_alpha h)
      (by decide) (by decide) _)
    intro a b ha hb
    exact ⟨by rw [show isDigitA ' ' = false from by decide, Bool.and_false],
      by rw [show isAlphaA ' ' = false from by decide, Bool.false_and]⟩
  have hchDA5 : List.Chain' (fun a b => (isDigitA a && isAlphaA b) = false) u5 := by
    rw [hu5]
    exact split2_no_pq (fun c h => isAlphaA_not_digit h) (by decide) (by decide) _
  have hchspy : List.Chain' (fun a b => (isSpaceP a && isSpaceP b) = false) (joinX u5) := by
    refine chain'_joinX ?_ ?_ hchsp5
    · intro d _
      rw [show isSpaceP 'x' = false from by decide, Bool.and_false]
    · intro d _
      rw [show isSpaceP 'x' = false from by decide, Bool.false_and]
  have hchLUy : List.Chain' (fun a b => (isLowerA a && isUpperA b) = false) (joinX u5) := by
    refine chain'_joinX ?_ ?_ hchLU5
    · intro d _
      rw [show isUpperA 'x' = false from by decide, Bool.and_false]
    · intro d hd
      rw [isDigitA_not_upper hd, Bool.and_false]
  have hszf : size_fullmatch (joinX u5) = false := size_fullmatch_no_und hund
  have hu2s : underToSpace (joinX u5) = joinX u5 := by
    apply underToSpace_id
    intro c hc hceq
    rw [hceq] at hc
    exact hund hc
  have hkeep : keepGeral (joinX u5) = joinX u5 := by
    unfold keepGeral
    exact List.filter_eq_self.mpr hmemy
  have hcoll : collapseWs (joinX u5) = joinX u5 :=
    collapseWs_id _ _ (Nat.le_refl _) hspy hchspy
  have hLU : split2 isLowerA isUpperA (joinX u5) = joinX u5 := split2_id hchLUy
  unfold limparStr
  rw [pre_id hascii hcomma]
  simp only [limparRamo, if_pos rfl, hn, Bool.false_eq_true, if_false, hszf]
  rw [hu2s, hkeep, hcoll, hstrip0, hLU,
    general_key u5.length u5 (Nat.le_refl _) (chain'_and hchAD5 hchDA5), hstrip0]
  simp

theorem limparStr_idem_geral {nome : Option Str} (hn : nomeIsPreco nome = false)
    (t : Str) :
    limparStr ("produtos".toList) nome (pyStrip (joinX (split2 isDigitA isAlphaA
      (split2 isAlphaA isDigitA (split2 isLowerA isUpperA
        (pyStrip (collapseWs (keepGeral (underToSpace t)))))))))
    = pyStrip (joinX (split2 isDigitA isAlphaA
      (split2 isAlphaA isDigitA (split2 isLowerA isUpperA
        (pyStrip (collapseWs (keepGeral (underToSpace t)))))))) := by
  apply geral_second_pass hn
  · intro c hc
    rcases mem_collapseWs (mem_pyStrip hc) with hc2 | rfl
    · exact keepGeral_mem hc2
    · decide
  · exact chain'_infix_of (chain'_collapseWs (keepGeral (underToSpace t)))
      (pyStrip_infix_of (collapseWs (keepGeral (underToSpace t))))
  · intro c hc
    exact pyStrip_head hc
  · intro c hc
    exact pyStrip_getLast hc

theorem mem_sub_virgula {c : Char} : ∀ {s : Str}, c ∈ sub_virgula s → c ∈ s ∨ c = '.' := by
  intro s
  induction s using sub_virgula.induct with
  | case1 a b d rest hcond ih =>
      intro h
      unfold sub_virgula at h
      rw [if_pos hcond] at h
      simp only [List.mem_cons] at h
      rcases h with rfl | rfl | rfl | h
      · exact Or.inl (by simp)
      · exact Or.inr rfl
      · exact Or.inl (by simp)
      · rcases ih h with h2 | h2
        · exact Or.inl (by simp [h2])
        · exact Or.inr h2
  | case2 a b d rest hcond ih =>
      intro h
      unfold sub_virgula at h
      rw [if_neg hcond] at h
      simp only [List.mem_cons] at h
      rcases h with rfl | h
      · exact Or.inl (by simp)
      · rcases ih h with h2 | h2
        · exact Or.inl (by simp [h2])
        · exact Or.inr h2
  | case3 s hs =>
      rcases s with _ | ⟨a, _ | ⟨b, _ | ⟨d, t⟩⟩⟩
      · exact fun h => Or.inl h
      · exact fun h => Or.inl h
      · exact fun h => Or.inl h
      · exact (hs a b d t rfl).elim

theorem limparStr_idem_ascii (contexto : Str) (nome : Option Str) (s : Str)
    (hsa : ∀ c ∈ s, c.toNat < 128) :
    limparStr contexto nome (limparStr contexto nome s) = limparStr contexto nome s := by
  have hta : ∀ c ∈ sub_virgula (acentosStr (mojibakeStr s)), c.toNat < 128 := by
    rw [mojibakeStr_ascii hsa, acentosStr_ascii hsa]
    intro c hc
    rcases mem_sub_virgula hc with h | rfl
    · exact hsa c h
    · decide
  by_cases hctx : contexto = "produtos".toList
  · subst hctx
    by_cases hn : nomeIsPreco nome = true
    · have h1 : limparStr ("produtos".toList) nome s
          = pyStrip (keepPrice (sub_virgula (acentosStr (mojibakeStr s)))) := by
        unfold limparStr
        simp only [limparRamo, if_pos rfl, hn, if_true]
      rw [h1]
      exact limparStr_idem_preco hn _
    · have hn2 : nomeIsPreco nome = false := by
        cases hh : nomeIsPreco nome
        · rfl
        · exact absurd hh hn
      by_cases hsz : size_fullmatch (sub_virgula (acentosStr (mojibakeStr s))) = true
      · have h1 : limparStr ("produtos".toList) nome s
            = joinX (pyStrip (collapseWs (keepSize
                (sub_virgula (acentosStr (mojibakeStr s)))))) := by
          unfold limparStr
          simp only [limparRamo, if_pos rfl, hn2, Bool.false_eq_true, if_false, hsz,
            if_true]
        rw [h1]
        exact limparStr_idem_size hn2 hsz hta
      · have hsz2 : size_fullmatch (sub_virgula (acentosStr (mojibakeStr s))) = false := by
          cases hh : size_fullmatch (sub_virgula (acentosStr (mojibakeStr s)))
          · rfl
          · exact absurd hh hsz
        have h1 : limparStr ("produtos".toList) nome s
            = pyStrip (joinX (split2 isDigitA isAlphaA
                (split2 isAlphaA isDigitA (split2 isLowerA isUpperA
                  (pyStrip (collapseWs (keepGeral (underToSpace
                    (sub_virgula (acentosStr (mojibakeStr s))))))))))) := by
          unfold limparStr
          simp only [limparRamo, if_pos rfl, hn2, Bool.false_eq_true, if_false, hsz2]
          simp
        rw [h1]
        exact limparStr_idem_geral hn2 _
  · have h1 : limparStr contexto nome s
        = pyStrip (subUnd (split2 isDigitA isAlphaA (split2 isAlphaA isDigitA
            (pyStrip (collapseWs (keepCliente (subUnd
              (sub_virgula (acentosStr (mojibakeStr s)))))))))) := by
      unfold limparStr
      simp only [limparRamo, if_neg hctx]
    rw [h1]
    exact limparStr_idem_cliente hctx nome _

/-- C4 (counterexample): `normalize` is not idempotent on all text.
Python's `\d` matches the Arabic-Indic digit `U+0665`, so the input
`a_` + `U+0665` + `x` + `U+0665` in the Products context fullmatches the
size pattern; the size path's ASCII-only strip then deletes the
non-ASCII digits, returning `"a_x"`. Cleaning `"a_x"` again fails the
size pattern and the general path turns the underscore into a space,
returning `"a x"`. -/
theorem C4_counterexample :
    limpar_texto (Cell.str ('a' :: '_' :: Char.ofNat 0x665 :: 'x' :: Char.ofNat 0x665 :: []))
        ("produtos".toList) (some ("tamanho".toList))
      = Cell.str ("a_x".toList)
    ∧ limpar_texto (Cell.str ("a_x".toList)) ("produtos".toList) (some ("tamanho".toList))
      = Cell.str ("a x".toList)
    ∧ ("a x".toList : Str) ≠ "a_x".toList := by
  decide

/-- C4 (amended): `normalize` (`limpar_texto`) is idempotent on every text
whose characters are ASCII, for every context and every column name; on
such inputs every regex class of the code coincides with its ASCII
reading, and each cleaning branch's output is a fixed point of a second
pass. -/
theorem C4_ascii_idempotent (contexto : Str) (nome : Option Str) (x : Str)
    (h : ∀ c ∈ x, c.toNat < 128) :
    limpar_texto (limpar_texto (Cell.str x) contexto nome) contexto nome
      = limpar_texto (Cell.str x) contexto nome := by
  show Cell.str (limparStr contexto nome (limparStr contexto nome x))
    = Cell.str (limparStr contexto nome x)
  rw [limparStr_idem_ascii contexto nome x h]

theorem C4_ascii_idempotent_witness :
    (∀ c ∈ ("caixa_10 X 20".toList : Str), c.toNat < 128)
    ∧ limpar_texto (limpar_texto (Cell.str ("caixa_10 X 20".toList)) ("produtos".toList)
        (some ("tamanho".toList))) ("produtos".toList) (some ("tamanho".toList))
      = limpar_texto (Cell.str ("caixa_10 X 20".toList)) ("produtos".toList)
        (some ("tamanho".toList)) :=
  ⟨by decide, C4_ascii_idempotent ("produtos".toList) (some ("tamanho".toList))
    ("caixa_10 X 20".toList) (by decide)⟩
